import Mathlib

/-!
Verification of the rule-evaluation and exact-arithmetic engine of an
Islamic inheritance calculator.

The development shallowly embeds:
* `src/fraction.js` — the exact rational `Fraction` class (numerator /
  denominator pair over the integers, constructor failing on a zero
  denominator, Euclidean gcd simplification);
* `src/shares.js` — the heir taxonomy, fixed-share functions, the
  residuary (asaba) priority scan and the 2:1 distribution of the
  remainder;
* `src/blocking.js` — the mutual-exclusion (hijb) rules;
* `src/special-cases.js` — the three corrective procedures (Awl
  proportional reduction, Radd proportional redistribution, and the
  Umariyyatan spouse-plus-both-parents exception).

Share arithmetic is embedded into `ℚ`: every `Fraction` the engine
builds has a nonzero denominator, and the class's add / subtract /
multiply / divide are exact rational operations, so values are tracked
in `ℚ` directly.  Claims about the `Fraction` data structure itself
(construction failure, normalization, idempotent simplification) use an
explicit integer-pair structure.
-/

/-! ### The Fraction class (src/fraction.js) -/

/-- A raw fraction value as stored by the JS class: a numerator and a
denominator, both integers (`this.num`, `this.den`). -/
structure Fraction where
  num : Int
  den : Int
  deriving DecidableEq, Repr

/-- Error raised by the `Fraction` class; both the constructor (zero
denominator) and `divide` (zero divisor) throw this same class of
error. -/
inductive FracError where
  | divisionByZero (msg : String)
  deriving DecidableEq, Repr

/-- `Fraction` constructor: fails when the denominator is zero, and
otherwise normalizes the sign so that it is carried on the numerator
(denominator made positive). -/
def Fraction.make (numerator denominator : Int) : Except FracError Fraction :=
  if denominator = 0 then
    .error (.divisionByZero "zero denominator")
  else if denominator < 0 then
    .ok ⟨-numerator, -denominator⟩
  else
    .ok ⟨numerator, denominator⟩

/-- `Fraction.gcd`: the source runs Euclid's algorithm on the absolute
values (`a = Math.abs(a); b = Math.abs(b); while (b !== 0) ...`), which
computes the natural gcd of the absolute values. -/
def Fraction.gcd (a b : Int) : Int :=
  (Nat.gcd a.natAbs b.natAbs : Int)

/-- `simplify`: a zero numerator collapses to `0/1`; otherwise both
components are divided (exactly) by their gcd. -/
def Fraction.simplify (f : Fraction) : Fraction :=
  if f.num = 0 then ⟨0, 1⟩
  else ⟨f.num / Fraction.gcd f.num f.den, f.den / Fraction.gcd f.num f.den⟩

/-- The rational value of a fraction. -/
def Fraction.toRat (f : Fraction) : ℚ :=
  (f.num : ℚ) / (f.den : ℚ)

/-- `equals`: both sides are simplified and compared componentwise
(canonical-form equality). -/
def Fraction.equalsB (f g : Fraction) : Bool :=
  f.simplify.num = g.simplify.num ∧ f.simplify.den = g.simplify.den

/-- `divide`: fails when the divisor's numerator is zero; otherwise
builds `(a.num * b.den) / (a.den * b.num)` through the constructor and
simplifies. -/
def Fraction.divide (a b : Fraction) : Except FracError Fraction :=
  if b.num = 0 then
    .error (.divisionByZero "division by zero")
  else
    (Fraction.make (a.num * b.den) (a.den * b.num)).map Fraction.simplify

/-! ### The heir-composition record

The composition record assembled by the form layer: spouse presence
(with plural wife count), descendant counts, ascendant presence flags,
sibling counts by parentage and sex, and the further male-line agnate
counts used by the residuary priority list. -/

structure Heirs where
  husband : Bool
  wife : Bool
  wifeCount : Nat
  sons : Nat
  daughters : Nat
  grandsonsFromSon : Nat
  granddaughtersFromSon : Nat
  father : Bool
  mother : Bool
  paternalGrandfather : Bool
  paternalGrandmother : Bool
  maternalGrandmother : Bool
  fullBrothers : Nat
  fullSisters : Nat
  paternalBrothers : Nat
  paternalSisters : Nat
  maternalBrothers : Nat
  maternalSisters : Nat
  nephewsFullBrothers : Nat
  nephewsPaternalBrothers : Nat
  unclesFull : Nat
  unclesPaternal : Nat
  deriving DecidableEq, Repr

/-- The all-absent composition, used as a base point for concrete test
compositions. -/
def Heirs.none : Heirs :=
  ⟨false, false, 0, 0, 0, 0, 0, false, false, false, false, false,
   0, 0, 0, 0, 0, 0, 0, 0, 0, 0⟩

/-- `hasChildren`: sons, daughters, or son's children present. -/
def hasChildren (h : Heirs) : Bool :=
  h.sons > 0 ∨ h.daughters > 0 ∨ h.grandsonsFromSon > 0 ∨
    h.granddaughtersFromSon > 0

/-- `hasMaleDescendants`: sons or son's sons present. -/
def hasMaleDescendants (h : Heirs) : Bool :=
  h.sons > 0 ∨ h.grandsonsFromSon > 0

/-- `hasMultipleSiblings`: two or more siblings of any parentage. -/
def hasMultipleSiblings (h : Heirs) : Bool :=
  h.fullBrothers + h.fullSisters + h.paternalBrothers + h.paternalSisters +
    h.maternalBrothers + h.maternalSisters ≥ 2

/-! ### Fixed-share functions (src/shares.js `HeirTypes`)

Each fixed-share function is the `getShare` closure of the matching
heir-type descriptor, with `null` (the residuary sentinel) rendered as
`Option.none`. -/

/-- Husband: 1/2 without descendants, 1/4 with. -/
def calculateHusbandShare (h : Heirs) : ℚ :=
  if hasChildren h then 1/4 else 1/2

/-- Wife (total across co-wives): 1/4 without descendants, 1/8 with. -/
def wifeTotalShare (h : Heirs) : ℚ :=
  if hasChildren h then 1/8 else 1/4

/-- Mother: 1/6 with descendants or two-plus siblings, else 1/3. -/
def calculateMotherShare (h : Heirs) : ℚ :=
  if hasChildren h ∨ hasMultipleSiblings h then 1/6 else 1/3

/-- Father `getShare`: 1/6 with a male descendant, 1/6 (plus residue as
asaba) with only female descendants, residuary sentinel otherwise. -/
def fatherFixedShare (h : Heirs) : Option ℚ :=
  if hasMaleDescendants h then some (1/6)
  else if h.daughters > 0 ∨ h.granddaughtersFromSon > 0 then some (1/6)
  else Option.none

/-- Paternal grandfather `getShare`: mirrors the father's rule. -/
def grandfatherFixedShare (h : Heirs) : Option ℚ :=
  if hasMaleDescendants h then some (1/6)
  else if h.daughters > 0 ∨ h.granddaughtersFromSon > 0 then some (1/6)
  else Option.none

/-- Daughter `getShare`: residuary with a son; else 1/2 for one
daughter, 2/3 for several. -/
def daughterShare (h : Heirs) : Option ℚ :=
  if h.sons > 0 then Option.none
  else if h.daughters = 1 then some (1/2)
  else some (2/3)

/-- Son's daughter `getShare`: residuary with a son's son; 1/6 top-up
beside one daughter; 0 beside two-plus daughters; else 1/2 or 2/3. -/
def granddaughterShare (h : Heirs) : Option ℚ :=
  if h.grandsonsFromSon > 0 then Option.none
  else if h.daughters = 1 then some (1/6)
  else if h.daughters ≥ 2 then some 0
  else if h.granddaughtersFromSon = 1 then some (1/2)
  else some (2/3)

/-- Full sister `getShare`: residuary beside a full brother; else 1/2
for one, 2/3 for several. -/
def fullSisterShare (h : Heirs) : Option ℚ :=
  if h.fullBrothers > 0 then Option.none
  else if h.fullSisters = 1 then some (1/2)
  else some (2/3)

/-- Paternal sister `getShare`: residuary beside a paternal brother;
1/6 top-up beside one full sister; 0 beside two-plus full sisters; else
1/2 or 2/3. -/
def paternalSisterShare (h : Heirs) : Option ℚ :=
  if h.paternalBrothers > 0 then Option.none
  else if h.fullSisters = 1 then some (1/6)
  else if h.fullSisters ≥ 2 then some 0
  else if h.paternalSisters = 1 then some (1/2)
  else some (2/3)

/-- Pooled head-count of maternal-only siblings. -/
def maternalTotal (h : Heirs) : Nat :=
  h.maternalBrothers + h.maternalSisters

/-- Maternal sibling `getShare` (same closure for brother and sister):
0 outside the kalala condition; 1/6 for one, 1/3 pooled for several. -/
def maternalSiblingShare (h : Heirs) : ℚ :=
  if h.father ∨ hasChildren h then 0
  else if maternalTotal h = 1 then 1/6
  else 1/3

/-- The kalala condition gating maternal-only siblings: no father and
no descendant. -/
def isKalalah (h : Heirs) : Bool :=
  ¬h.father ∧ ¬hasChildren h

/-! ### Fixed-share total and remainder (src/shares.js) -/

/-- The ordered list of fixed (non-residuary) contributions accumulated
by `calculateFixedSharesTotal`, one guarded term per conditional `add`
in the source, in source order: spouse, mother, father, grandfather
(only without the father), grandmothers (only without the mother),
daughters (only without sons), son's daughters (skipped when residuary
beside a son's son), full sisters, paternal sisters, pooled maternal
siblings (kalala). -/
def fixedShareTerms (h : Heirs) : List ℚ :=
  [ (if h.husband then calculateHusbandShare h
     else if h.wife then wifeTotalShare h else 0),
    (if h.mother then calculateMotherShare h else 0),
    (if h.father then (fatherFixedShare h).getD 0 else 0),
    (if h.paternalGrandfather ∧ ¬h.father then
       (grandfatherFixedShare h).getD 0 else 0),
    (if (h.paternalGrandmother ∨ h.maternalGrandmother) ∧ ¬h.mother then
       1/6 else 0),
    (if h.daughters > 0 ∧ h.sons = 0 then (daughterShare h).getD 0 else 0),
    (if h.granddaughtersFromSon > 0 ∧ h.sons = 0 then
       (if h.grandsonsFromSon > 0 then 0 else (granddaughterShare h).getD 0)
     else 0),
    (if h.fullSisters > 0 ∧ h.fullBrothers = 0 ∧ ¬h.father ∧ h.sons = 0 ∧
        h.grandsonsFromSon = 0 then (fullSisterShare h).getD 0 else 0),
    (if h.paternalSisters > 0 ∧ h.paternalBrothers = 0 ∧ ¬h.father ∧
        h.sons = 0 ∧ h.grandsonsFromSon = 0 ∧ h.fullBrothers = 0 then
       (paternalSisterShare h).getD 0 else 0),
    (if isKalalah h ∧ maternalTotal h > 0 then
       (if maternalTotal h = 1 then 1/6 else 1/3) else 0) ]

/-- `calculateFixedSharesTotal`: the source starts from `0/1` and
conditionally adds each contribution in the order of
`fixedShareTerms`. -/
def calculateFixedSharesTotal (h : Heirs) : ℚ :=
  (fixedShareTerms h).sum

/-- `calculateRemainder`: one minus the fixed-share total (may be
negative, signalling Awl). -/
def calculateRemainder (h : Heirs) : ℚ :=
  1 - calculateFixedSharesTotal h

/-! ### Residuary (asaba) resolver (src/shares.js) -/

/-- The residuary categories scanned by `determineAsaba`, in the order
of the `AsabaPriority` table. -/
inductive AsabaKey where
  | sons
  | grandsonsFromSon
  | father
  | paternalGrandfather
  | fullBrothers
  | paternalBrothers
  | nephewsFullBrothers
  | nephewsPaternalBrothers
  | unclesFull
  | unclesPaternal
  deriving DecidableEq, Repr

/-- `AsabaPriority` scan order. -/
def asabaPriorityList : List AsabaKey :=
  [.sons, .grandsonsFromSon, .father, .paternalGrandfather, .fullBrothers,
   .paternalBrothers, .nephewsFullBrothers, .nephewsPaternalBrothers,
   .unclesFull, .unclesPaternal]

/-- Head-count of a residuary category (a presence flag counts as 1, as
in `count === true ? 1 : count`). -/
def asabaCount (h : Heirs) : AsabaKey → Nat
  | .sons => h.sons
  | .grandsonsFromSon => h.grandsonsFromSon
  | .father => if h.father then 1 else 0
  | .paternalGrandfather => if h.paternalGrandfather then 1 else 0
  | .fullBrothers => h.fullBrothers
  | .paternalBrothers => h.paternalBrothers
  | .nephewsFullBrothers => h.nephewsFullBrothers
  | .nephewsPaternalBrothers => h.nephewsPaternalBrothers
  | .unclesFull => h.unclesFull
  | .unclesPaternal => h.unclesPaternal

/-- Presence of a closer male agnate, blocking nephews and uncles in
the scan. -/
def blockedByCloserAsaba (h : Heirs) : Bool :=
  h.sons > 0 ∨ h.grandsonsFromSon > 0 ∨ h.father ∨ h.paternalGrandfather ∨
    h.fullBrothers > 0 ∨ h.paternalBrothers > 0

/-- The per-category skip conditions of the `determineAsaba` loop. -/
def asabaScanBlocked (h : Heirs) : AsabaKey → Bool
  | .sons => false
  | .grandsonsFromSon => h.sons > 0
  | .father => false
  | .paternalGrandfather => h.father
  | .fullBrothers => h.father ∨ h.sons > 0 ∨ h.grandsonsFromSon > 0
  | .paternalBrothers =>
      (h.father ∨ h.sons > 0 ∨ h.grandsonsFromSon > 0) ∨ h.fullBrothers > 0
  | .nephewsFullBrothers => blockedByCloserAsaba h
  | .nephewsPaternalBrothers =>
      blockedByCloserAsaba h ∨ h.nephewsFullBrothers > 0
  | .unclesFull =>
      blockedByCloserAsaba h ∨ h.nephewsFullBrothers > 0 ∨
        h.nephewsPaternalBrothers > 0
  | .unclesPaternal =>
      blockedByCloserAsaba h ∨ h.nephewsFullBrothers > 0 ∨
        h.nephewsPaternalBrothers > 0 ∨ h.unclesFull > 0

/-- A category survives the loop iteration when it is present (nonzero
count) and not skipped by its blocking condition. -/
def asabaEligible (h : Heirs) (k : AsabaKey) : Bool :=
  asabaCount h k ≠ 0 ∧ ¬asabaScanBlocked h k

/-- The `for`-loop of `determineAsaba`: return the first surviving
category of the list, else null. -/
def scanAsaba (h : Heirs) : List AsabaKey → Option AsabaKey
  | [] => Option.none
  | k :: ks => if asabaEligible h k then some k else scanAsaba h ks

/-- `determineAsaba`, reduced to the selected category key (the
male-count / female-count fields of the returned record are recovered
by `asabaCount` and `femaleCountFor`). -/
def determineAsaba (h : Heirs) : Option AsabaKey :=
  scanAsaba h asabaPriorityList

/-- The same-tier female head-count paired with the selected residuary
category (daughters with sons, son's daughters with son's sons, full
sisters with full brothers, paternal sisters with paternal brothers,
zero elsewhere). -/
def femaleCountFor (h : Heirs) : AsabaKey → Nat
  | .sons => h.daughters
  | .grandsonsFromSon => h.granddaughtersFromSon
  | .fullBrothers => h.fullSisters
  | .paternalBrothers => h.paternalSisters
  | _ => 0

/-- Result record of `distributeAsaba`. -/
structure AsabaDist where
  maleShare : ℚ
  femaleShare : ℚ
  perMaleShare : ℚ
  perFemaleShare : ℚ
  totalShares : Nat
  deriving DecidableEq, Repr

/-- `distributeAsaba`: zero remainder distributes nothing; with no
female counterpart the remainder splits evenly over the male
head-count; otherwise each male counts 2 units and each female 1 unit
of the remainder. -/
def distributeAsaba (remainder : ℚ) (maleCount femaleCount : Nat) :
    AsabaDist :=
  if remainder = 0 then ⟨0, 0, 0, 0, 0⟩
  else if femaleCount = 0 then
    ⟨remainder, 0, remainder / maleCount, 0, maleCount⟩
  else
    let totalShares := maleCount * 2 + femaleCount
    let shareUnit := remainder / totalShares
    let perMaleShare := shareUnit * 2
    let perFemaleShare := shareUnit
    ⟨perMaleShare * maleCount, perFemaleShare * femaleCount,
     perMaleShare, perFemaleShare, totalShares⟩

/-- `calculateAsaba`: no distribution when there is no residuary
category or the remainder is negative or zero; otherwise the selected
key with its 2:1 distribution of the remainder. -/
def calculateAsaba (h : Heirs) : Option (AsabaKey × AsabaDist) :=
  match determineAsaba h with
  | Option.none => Option.none
  | some k =>
      let remainder := calculateRemainder h
      if remainder < 0 ∨ remainder = 0 then Option.none
      else some (k, distributeAsaba remainder (asabaCount h k)
        (femaleCountFor h k))

/-! ### Blocking rules (src/blocking.js) -/

/-- The blockable heir categories of the `BlockingRules` table. -/
inductive BlockableType where
  | paternalGrandfather
  | paternalGrandmother
  | grandsonsFromSon
  | granddaughtersFromSon
  | fullBrothers
  | fullSisters
  | paternalBrothers
  | paternalSisters
  deriving DecidableEq, Repr

/-- `BlockingRules`: the per-category blocking predicate. -/
def blockingRule (h : Heirs) : BlockableType → Bool
  | .paternalGrandfather => h.father
  | .paternalGrandmother => h.mother
  | .grandsonsFromSon => h.sons > 0
  | .granddaughtersFromSon => h.sons > 0
  | .fullBrothers => h.father ∨ h.sons > 0 ∨ h.grandsonsFromSon > 0
  | .fullSisters => h.father ∨ h.sons > 0 ∨ h.grandsonsFromSon > 0
  | .paternalBrothers =>
      h.father ∨ h.sons > 0 ∨ h.grandsonsFromSon > 0 ∨ h.fullBrothers > 0
  | .paternalSisters =>
      h.father ∨ h.sons > 0 ∨ h.grandsonsFromSon > 0 ∨ h.fullBrothers > 0

/-- `checkBlocking`, reduced to the blocked flag: evaluate the
category's rule (categories outside the table are never blocked, which
is vacuous here since `BlockableType` lists exactly the table's
keys). -/
def checkBlocking (t : BlockableType) (h : Heirs) : Bool :=
  blockingRule h t

/-! ### Awl — proportional reduction (src/special-cases.js) -/

/-- `needsAwl`: the fixed-share total strictly exceeds one. -/
def needsAwl (h : Heirs) : Bool :=
  calculateFixedSharesTotal h > 1

/-- `calculateAwlRatio`: `1 / total` when the total exceeds one, else
the identity ratio. -/
def calculateAwlRatio (h : Heirs) : ℚ :=
  if calculateFixedSharesTotal h > 1 then 1 / calculateFixedSharesTotal h
  else 1

/-- `applyAwlToShare`: a null or zero share stays zero; otherwise the
share is multiplied by the ratio. -/
def applyAwlToShare (share awlRatio : ℚ) : ℚ :=
  if share = 0 then 0 else share * awlRatio

/-! ### Radd — proportional redistribution (src/special-cases.js) -/

/-- The recipient categories that can appear in `getRaddRecipients`
(spouses never appear). -/
inductive RaddRecipient where
  | mother
  | daughters
  | granddaughtersFromSon
  | grandmothers
  | fullSisters
  | paternalSisters
  | maternalBrothers
  | maternalSisters
  deriving DecidableEq, Repr

/-- `canDaughtersParticipateInRadd`. -/
def canDaughtersRadd (h : Heirs) : Bool :=
  h.daughters > 0 ∧ h.sons = 0

/-- `canGranddaughtersParticipateInRadd`. -/
def canGranddaughtersRadd (h : Heirs) : Bool :=
  h.granddaughtersFromSon > 0 ∧ h.sons = 0

/-- `canGrandmothersParticipateInRadd`. -/
def canGrandmothersRadd (h : Heirs) : Bool :=
  (h.paternalGrandmother ∨ h.maternalGrandmother) ∧ ¬h.mother

/-- `areSistersBlockedFromRadd`. -/
def sistersBlockedFromRadd (h : Heirs) : Bool :=
  h.father ∨ h.sons > 0 ∨ h.grandsonsFromSon > 0

/-- `canFullSistersParticipateInRadd`. -/
def canFullSistersRadd (h : Heirs) : Bool :=
  h.fullSisters > 0 ∧ h.fullBrothers = 0 ∧ ¬sistersBlockedFromRadd h

/-- `canPaternalSistersParticipateInRadd`. -/
def canPaternalSistersRadd (h : Heirs) : Bool :=
  h.paternalSisters > 0 ∧ h.paternalBrothers = 0 ∧ h.fullBrothers = 0 ∧
    ¬sistersBlockedFromRadd h

/-- `getRaddRecipients`: the recipients pushed in source order; spouse
categories are never pushed. -/
def getRaddRecipients (h : Heirs) : List RaddRecipient :=
  (if h.mother then [RaddRecipient.mother] else [])
  ++ (if canDaughtersRadd h then [RaddRecipient.daughters] else [])
  ++ (if canGranddaughtersRadd h then [RaddRecipient.granddaughtersFromSon]
      else [])
  ++ (if canGrandmothersRadd h then [RaddRecipient.grandmothers] else [])
  ++ (if canFullSistersRadd h then [RaddRecipient.fullSisters] else [])
  ++ (if canPaternalSistersRadd h then [RaddRecipient.paternalSisters]
      else [])
  ++ (if isKalalah h ∧ h.maternalBrothers > 0 then
        [RaddRecipient.maternalBrothers] else [])
  ++ (if isKalalah h ∧ h.maternalSisters > 0 then
        [RaddRecipient.maternalSisters] else [])

/-- `calculateDaughtersRaddShare`. -/
def daughtersRaddShare (h : Heirs) : ℚ :=
  if h.daughters = 1 then 1/2 else 2/3

/-- `calculateGranddaughtersRaddShare`. -/
def granddaughtersRaddShare (h : Heirs) : ℚ :=
  if h.daughters = 1 then 1/6
  else if h.daughters = 0 then
    (if h.granddaughtersFromSon = 1 then 1/2 else 2/3)
  else 0

/-- `calculateFullSistersRaddShare`. -/
def fullSistersRaddShare (h : Heirs) : ℚ :=
  if h.fullSisters = 1 then 1/2 else 2/3

/-- `calculatePaternalSistersRaddShare`. -/
def paternalSistersRaddShare (h : Heirs) : ℚ :=
  if h.fullSisters = 1 then 1/6
  else if h.fullSisters = 0 then
    (if h.paternalSisters = 1 then 1/2 else 2/3)
  else 0

/-- `calculateMaternalSiblingsRaddShare`. -/
def maternalSiblingsRaddShare (h : Heirs) : ℚ :=
  if maternalTotal h = 1 then 1/6 else 1/3

/-- `shouldAddMaternalSiblingsShare`: the pooled maternal share is
meant to be added once for the whole pooled category — at the brothers
entry when both maternal categories are in the list. -/
def shouldAddMaternalSiblingsShare (recipient : RaddRecipient)
    (recipients : List RaddRecipient) : Bool :=
  let hasBrothers := RaddRecipient.maternalBrothers ∈ recipients
  let hasSisters := RaddRecipient.maternalSisters ∈ recipients
  if recipient = RaddRecipient.maternalBrothers ∧ ¬hasSisters then true
  else if recipient = RaddRecipient.maternalSisters ∧ ¬hasBrothers then true
  else if recipient = RaddRecipient.maternalBrothers ∧ hasSisters then true
  else false

/-- `getRecipientRaddShare`: the base fixed share of a recipient,
relative to a recipient list (the list matters only for the maternal
pooled category through `shouldAddMaternalSiblingsShare`). -/
def getRecipientRaddShare (recipient : RaddRecipient) (h : Heirs)
    (recipients : List RaddRecipient) : ℚ :=
  match recipient with
  | .mother => calculateMotherShare h
  | .daughters => daughtersRaddShare h
  | .granddaughtersFromSon => granddaughtersRaddShare h
  | .grandmothers => 1/6
  | .fullSisters => fullSistersRaddShare h
  | .paternalSisters => paternalSistersRaddShare h
  | .maternalBrothers =>
      if shouldAddMaternalSiblingsShare .maternalBrothers recipients then
        maternalSiblingsRaddShare h
      else 0
  | .maternalSisters =>
      if shouldAddMaternalSiblingsShare .maternalSisters recipients then
        maternalSiblingsRaddShare h
      else 0

/-- `calculateRaddRecipientsTotal`: sum of the base shares over the
recipient list (each evaluated against the full list). -/
def calculateRaddRecipientsTotal (h : Heirs)
    (recipients : List RaddRecipient) : ℚ :=
  (recipients.map (fun r => getRecipientRaddShare r h recipients)).sum

/-- `calculateRaddShareForRecipient`: the addend for one recipient —
note the source evaluates the base share against the singleton list
`[recipient]`, not the full recipient list. -/
def calculateRaddShareForRecipient (recipient : RaddRecipient) (h : Heirs)
    (remainder recipientsTotal : ℚ) : ℚ :=
  remainder * (getRecipientRaddShare recipient h [recipient] /
    recipientsTotal)

/-- The condition under which `applyRadd` actually distributes: a
strictly positive remainder, no residuary category, and a nonempty
recipient list. -/
def raddApplies (h : Heirs) : Bool :=
  calculateRemainder h > 0 ∧ determineAsaba h = Option.none ∧
    getRaddRecipients h ≠ []

/-- The addends map of `applyRadd` (`calculateAllRaddShares`), as a
function on recipients: zero outside the recipient list or when Radd
does not apply. -/
def raddShareOf (h : Heirs) (r : RaddRecipient) : ℚ :=
  if raddApplies h ∧ r ∈ getRaddRecipients h then
    calculateRaddShareForRecipient r h (calculateRemainder h)
      (calculateRaddRecipientsTotal h (getRaddRecipients h))
  else 0

/-! ### Umariyyatan — spouse plus both parents (src/special-cases.js) -/

/-- `checkUmariyyatan`: a spouse, both parents, and no descendant,
sibling, or grandparent. -/
def checkUmariyyatan (h : Heirs) : Bool :=
  (h.husband ∨ h.wife) ∧ h.father ∧ h.mother ∧
    ¬(h.sons > 0 ∨ h.daughters > 0 ∨ h.grandsonsFromSon > 0 ∨
      h.granddaughtersFromSon > 0) ∧
    ¬(h.fullBrothers > 0 ∨ h.fullSisters > 0 ∨ h.paternalBrothers > 0 ∨
      h.paternalSisters > 0 ∨ h.maternalBrothers > 0 ∨
      h.maternalSisters > 0) ∧
    ¬(h.paternalGrandfather ∨ h.paternalGrandmother ∨ h.maternalGrandmother)

/-- The three shares computed by `calculateUmariyyatanShares`. -/
structure UmarShares where
  spouseIsHusband : Bool
  spouseShare : ℚ
  motherShare : ℚ
  fatherShare : ℚ
  deriving DecidableEq, Repr

/-- `calculateUmariyyatanShares`: the spouse takes the ordinary
no-descendant fraction, the mother one third of the remainder after the
spouse, the father the rest of that remainder. -/
def calculateUmariyyatanShares (h : Heirs) : Option UmarShares :=
  if checkUmariyyatan h then
    let spouseShare : ℚ := if h.husband then 1/2 else 1/4
    let remainderAfterSpouse := 1 - spouseShare
    let motherShare := remainderAfterSpouse / 3
    let fatherShare := remainderAfterSpouse - motherShare
    some ⟨h.husband, spouseShare, motherShare, fatherShare⟩
  else Option.none

/-! ### Orchestrator — full computation (modelled from the spec)

The primary entry point (`computeDistribution`) lives in the page
controller, outside the four rule/arithmetic modules; only the rule
engine it drives is in source.  The allocation list below is therefore
modelled from the spec, on top of the embedded source functions. -/

/-- Output category identity of an allocation entry.  The grandmothers
and the pooled maternal siblings are single logical entries, as in the
data model. -/
inductive HeirCat where
  | husband
  | wife
  | mother
  | father
  | paternalGrandfather
  | grandmothers
  | sons
  | daughters
  | grandsonsFromSon
  | granddaughtersFromSon
  | fullBrothers
  | fullSisters
  | paternalBrothers
  | paternalSisters
  | maternalSiblings
  | nephewsFullBrothers
  | nephewsPaternalBrothers
  | unclesFull
  | unclesPaternal
  deriving DecidableEq, Repr

/-- The residuary male total assigned to category `k`: the
distribution's male share when `calculateAsaba` selected `k`, zero
otherwise. -/
def asabaMaleShareFor (h : Heirs) (k : AsabaKey) : ℚ :=
  match calculateAsaba h with
  | some (k', d) => if k' = k then d.maleShare else 0
  | Option.none => 0

/-- The residuary female total paired with the tier of `k`. -/
def asabaFemaleShareFor (h : Heirs) (k : AsabaKey) : ℚ :=
  match calculateAsaba h with
  | some (k', d) => if k' = k then d.femaleShare else 0
  | Option.none => 0

/-- The redistribution addend folded into the pooled maternal-siblings
entry: the brothers addend when maternal brothers exist, else the
sisters addend (the pooled category receives one addend). -/
def maternalRaddAddend (h : Heirs) : ℚ :=
  if h.maternalBrothers > 0 then raddShareOf h .maternalBrothers
  else raddShareOf h .maternalSisters

/-- Modelled from the spec: the orchestrator (`computeDistribution`,
outside the rule modules in source) — if the Umariyyatan exception
applies, exactly its three entries are emitted; otherwise every
present, unblocked category receives its fixed share (4.3) scaled by
the Awl ratio (1 when no reduction), plus the residuary distribution of
its tier (4.4), plus its Radd addend (4.5.3), and blocked categories
are left out of the summed (non-blocked) entries. -/
def allocationEntries (h : Heirs) : List (HeirCat × ℚ) :=
  match calculateUmariyyatanShares h with
  | some u =>
      [(if u.spouseIsHusband then HeirCat.husband else HeirCat.wife,
        u.spouseShare),
       (HeirCat.mother, u.motherShare), (HeirCat.father, u.fatherShare)]
  | Option.none =>
      let r := calculateAwlRatio h
      (if h.husband then [(HeirCat.husband, calculateHusbandShare h * r)]
       else if h.wife then [(HeirCat.wife, wifeTotalShare h * r)] else [])
      ++ (if h.mother then
            [(HeirCat.mother,
              calculateMotherShare h * r + raddShareOf h .mother)] else [])
      ++ (if h.father then
            [(HeirCat.father,
              (fatherFixedShare h).getD 0 * r +
                asabaMaleShareFor h .father)] else [])
      ++ (if h.paternalGrandfather ∧ ¬h.father then
            [(HeirCat.paternalGrandfather,
              (grandfatherFixedShare h).getD 0 * r +
                asabaMaleShareFor h .paternalGrandfather)] else [])
      ++ (if (h.paternalGrandmother ∨ h.maternalGrandmother) ∧ ¬h.mother then
            [(HeirCat.grandmothers,
              1/6 * r + raddShareOf h .grandmothers)] else [])
      ++ (if h.sons > 0 then
            [(HeirCat.sons, asabaMaleShareFor h .sons)] else [])
      ++ (if h.daughters > 0 then
            [(HeirCat.daughters,
              if h.sons > 0 then asabaFemaleShareFor h .sons
              else (daughterShare h).getD 0 * r +
                raddShareOf h .daughters)] else [])
      ++ (if h.grandsonsFromSon > 0 ∧ h.sons = 0 then
            [(HeirCat.grandsonsFromSon,
              asabaMaleShareFor h .grandsonsFromSon)] else [])
      ++ (if h.granddaughtersFromSon > 0 ∧ h.sons = 0 then
            [(HeirCat.granddaughtersFromSon,
              if h.grandsonsFromSon > 0 then
                asabaFemaleShareFor h .grandsonsFromSon
              else (granddaughterShare h).getD 0 * r +
                raddShareOf h .granddaughtersFromSon)] else [])
      ++ (if h.fullBrothers > 0 ∧ ¬h.father ∧ h.sons = 0 ∧
             h.grandsonsFromSon = 0 then
            [(HeirCat.fullBrothers,
              asabaMaleShareFor h .fullBrothers)] else [])
      ++ (if h.fullSisters > 0 ∧ h.fullBrothers > 0 ∧ ¬h.father ∧
             h.sons = 0 ∧ h.grandsonsFromSon = 0 then
            [(HeirCat.fullSisters,
              asabaFemaleShareFor h .fullBrothers)] else [])
      ++ (if h.fullSisters > 0 ∧ h.fullBrothers = 0 ∧ ¬h.father ∧
             h.sons = 0 ∧ h.grandsonsFromSon = 0 then
            [(HeirCat.fullSisters,
              (fullSisterShare h).getD 0 * r +
                raddShareOf h .fullSisters)] else [])
      ++ (if h.paternalBrothers > 0 ∧ ¬h.father ∧ h.sons = 0 ∧
             h.grandsonsFromSon = 0 ∧ h.fullBrothers = 0 then
            [(HeirCat.paternalBrothers,
              asabaMaleShareFor h .paternalBrothers)] else [])
      ++ (if h.paternalSisters > 0 ∧ h.paternalBrothers > 0 ∧ ¬h.father ∧
             h.sons = 0 ∧ h.grandsonsFromSon = 0 ∧ h.fullBrothers = 0 then
            [(HeirCat.paternalSisters,
              asabaFemaleShareFor h .paternalBrothers)] else [])
      ++ (if h.paternalSisters > 0 ∧ h.paternalBrothers = 0 ∧ ¬h.father ∧
             h.sons = 0 ∧ h.grandsonsFromSon = 0 ∧ h.fullBrothers = 0 then
            [(HeirCat.paternalSisters,
              (paternalSisterShare h).getD 0 * r +
                raddShareOf h .paternalSisters)] else [])
      ++ (if isKalalah h ∧ maternalTotal h > 0 then
            [(HeirCat.maternalSiblings,
              (if maternalTotal h = 1 then (1:ℚ)/6 else 1/3) * r +
                maternalRaddAddend h)] else [])
      ++ (if asabaEligible h .nephewsFullBrothers then
            [(HeirCat.nephewsFullBrothers,
              asabaMaleShareFor h .nephewsFullBrothers)] else [])
      ++ (if asabaEligible h .nephewsPaternalBrothers then
            [(HeirCat.nephewsPaternalBrothers,
              asabaMaleShareFor h .nephewsPaternalBrothers)] else [])
      ++ (if asabaEligible h .unclesFull then
            [(HeirCat.unclesFull, asabaMaleShareFor h .unclesFull)] else [])
      ++ (if asabaEligible h .unclesPaternal then
            [(HeirCat.unclesPaternal,
              asabaMaleShareFor h .unclesPaternal)] else [])

/-- The sum of final fractions over the (non-blocked) allocation
entries. -/
def sumFinalFractions (h : Heirs) : ℚ :=
  ((allocationEntries h).map Prod.snd).sum

/-- A composition respecting the input-boundary contract: husband and
wife are mutually exclusive and the wife multiplicity is at least one
when a wife is present (all counts are naturals, hence
non-negative). -/
def validComposition (h : Heirs) : Prop :=
  ¬(h.husband ∧ h.wife) ∧ (h.wife → 1 ≤ h.wifeCount)

instance : DecidablePred validComposition := fun h => by
  unfold validComposition; infer_instance

/-- At least one heir category is present and not nulled out by the
blocking rules (categories without a blocking rule are never
blocked). -/
def hasUnblockedHeir (h : Heirs) : Bool :=
  h.husband ∨ h.wife ∨ h.mother ∨ h.father ∨ h.sons > 0 ∨ h.daughters > 0 ∨
    h.maternalGrandmother ∨ maternalTotal h > 0 ∨
    (h.grandsonsFromSon > 0 ∧ ¬checkBlocking .grandsonsFromSon h) ∨
    (h.granddaughtersFromSon > 0 ∧ ¬checkBlocking .granddaughtersFromSon h) ∨
    (h.paternalGrandfather ∧ ¬checkBlocking .paternalGrandfather h) ∨
    (h.paternalGrandmother ∧ ¬checkBlocking .paternalGrandmother h) ∨
    (h.fullBrothers > 0 ∧ ¬checkBlocking .fullBrothers h) ∨
    (h.fullSisters > 0 ∧ ¬checkBlocking .fullSisters h) ∨
    (h.paternalBrothers > 0 ∧ ¬checkBlocking .paternalBrothers h) ∨
    (h.paternalSisters > 0 ∧ ¬checkBlocking .paternalSisters h) ∨
    h.nephewsFullBrothers > 0 ∨ h.nephewsPaternalBrothers > 0 ∨
    h.unclesFull > 0 ∨ h.unclesPaternal > 0

/-! ### C10 definition: wife share at the Fraction level -/

/-- `calculateWifeShare`: the total wife share is divided by the wife
count, defaulted to 1 by `heirs.wifeCount || 1` when zero or absent.
The division is performed through the `Fraction` class, so a zero
divisor would raise. -/
def calculateWifeShareF (h : Heirs) : Except FracError (Fraction × Nat) :=
  let totalShare : Fraction := if hasChildren h then ⟨1, 8⟩ else ⟨1, 4⟩
  let wifeCount : Nat := if h.wifeCount = 0 then 1 else h.wifeCount
  (Fraction.divide totalShare ⟨(wifeCount : Int), 1⟩).map
    (fun f => (f, wifeCount))

/-! ### Theorems: supporting lemmas -/

/-- A key returned by the priority scan is eligible (present and not
skipped). -/
theorem scanAsaba_eligible (h : Heirs) (l : List AsabaKey) (k : AsabaKey)
    (hk : scanAsaba h l = some k) : asabaEligible h k = true := by
  induction l with
  | nil => simp [scanAsaba] at hk
  | cons a t ih =>
      by_cases ha : asabaEligible h a = true
      · simp [scanAsaba, ha] at hk
        exact hk ▸ ha
      · simp [scanAsaba, ha] at hk
        exact ih hk

/-- First-match characterization of the priority scan. -/
theorem scanAsaba_eq_some_iff (h : Heirs) (l : List AsabaKey)
    (k : AsabaKey) :
    scanAsaba h l = some k ↔
      ∃ l1 l2, l = l1 ++ k :: l2 ∧ asabaEligible h k = true ∧
        ∀ k' ∈ l1, asabaEligible h k' = false := by
  induction l with
  | nil =>
      simp only [scanAsaba]
      constructor
      · intro hc; cases hc
      · rintro ⟨l1, l2, heq, -, -⟩
        exact absurd heq (by simp)
  | cons a t ih =>
      by_cases ha : asabaEligible h a = true
      · simp only [scanAsaba, ha, if_true]
        constructor
        · intro hk
          injection hk with hk
          exact ⟨[], t, by simp [hk], hk ▸ ha, by simp⟩
        · rintro ⟨l1, l2, heq, hk, hall⟩
          cases l1 with
          | nil =>
              simp only [List.nil_append, List.cons.injEq] at heq
              rw [heq.1]
          | cons b l1t =>
              simp only [List.cons_append, List.cons.injEq] at heq
              have hb : asabaEligible h b = false := hall b (by simp)
              rw [← heq.1] at hb
              rw [ha] at hb
              cases hb
      · have ha' : asabaEligible h a = false := by
          cases hab : asabaEligible h a
          · rfl
          · exact absurd hab ha
        simp only [scanAsaba, ha', Bool.false_eq_true, if_false]
        rw [ih]
        constructor
        · rintro ⟨l1, l2, heq, hk, hall⟩
          refine ⟨a :: l1, l2, by rw [heq]; rfl, hk, ?_⟩
          intro k' hk'
          rcases List.mem_cons.mp hk' with rfl | hmem
          · exact ha'
          · exact hall k' hmem
        · rintro ⟨l1, l2, heq, hk, hall⟩
          cases l1 with
          | nil =>
              simp only [List.nil_append, List.cons.injEq] at heq
              rw [heq.1] at ha'
              rw [hk] at ha'
              cases ha'
          | cons b l1t =>
              simp only [List.cons_append, List.cons.injEq] at heq
              refine ⟨l1t, l2, heq.2, hk, ?_⟩
              intro k' hk'
              exact hall k' (by simp [hk'])

/-- No-match characterization of the priority scan. -/
theorem scanAsaba_eq_none_iff (h : Heirs) (l : List AsabaKey) :
    scanAsaba h l = Option.none ↔
      ∀ k ∈ l, asabaEligible h k = false := by
  induction l with
  | nil => simp [scanAsaba]
  | cons a t ih =>
      by_cases ha : asabaEligible h a = true
      · simp [scanAsaba, ha]
      · have ha' : asabaEligible h a = false := by
          cases hab : asabaEligible h a
          · rfl
          · exact absurd hab ha
        simp only [scanAsaba, ha', Bool.false_eq_true, if_false]
        rw [ih]
        constructor
        · intro hall k hk
          rcases List.mem_cons.mp hk with rfl | hmem
          · exact ha'
          · exact hall k hmem
        · intro hall k hk
          exact hall k (by simp [hk])

/-- The class gcd agrees with the integer gcd. -/
theorem Fraction.gcd_eq_intGcd (a b : Int) :
    Fraction.gcd a b = (Int.gcd a b : Int) := rfl

/-- Simplification does not change the rational value. -/
theorem Fraction.simplify_toRat (f : Fraction) (hden : f.den ≠ 0) :
    f.simplify.toRat = f.toRat := by
  unfold Fraction.simplify
  by_cases hnum : f.num = 0
  · simp [hnum, Fraction.toRat]
  · rw [if_neg hnum]
    have hgpos : 0 < Int.gcd f.num f.den :=
      Int.gcd_pos_of_ne_zero_left _ hnum
    have hdl : (Int.gcd f.num f.den : ℤ) ∣ f.num := Int.gcd_dvd_left
    have hdr : (Int.gcd f.num f.den : ℤ) ∣ f.den := Int.gcd_dvd_right
    unfold Fraction.toRat
    simp only [Fraction.gcd_eq_intGcd]
    rw [Int.cast_div_charZero hdl, Int.cast_div_charZero hdr]
    have hgq : (((Int.gcd f.num f.den : ℤ)) : ℚ) ≠ 0 := by
      push_cast
      exact_mod_cast hgpos.ne'
    have hdq : ((f.den : ℤ) : ℚ) ≠ 0 := by exact_mod_cast hden
    field_simp

/-- Core of the idempotence law: a second simplification is the
identity. -/
theorem Fraction.simplify_simplify (f : Fraction) :
    f.simplify.simplify = f.simplify := by
  by_cases hnum : f.num = 0
  · simp [Fraction.simplify, hnum]
  · have hgpos : 0 < Int.gcd f.num f.den :=
      Int.gcd_pos_of_ne_zero_left _ hnum
    have hdl : (Int.gcd f.num f.den : ℤ) ∣ f.num := Int.gcd_dvd_left
    have hs : f.simplify = ⟨f.num / (Int.gcd f.num f.den : ℤ),
        f.den / (Int.gcd f.num f.den : ℤ)⟩ := by
      unfold Fraction.simplify
      rw [if_neg hnum, Fraction.gcd_eq_intGcd]
    have hnum2 : f.num / (Int.gcd f.num f.den : ℤ) ≠ 0 := by
      intro hc
      apply hnum
      have hmul := Int.ediv_mul_cancel hdl
      rw [hc] at hmul
      simpa using hmul.symm
    have hgcd1 : Int.gcd (f.num / (Int.gcd f.num f.den : ℤ))
        (f.den / (Int.gcd f.num f.den : ℤ)) = 1 :=
      Int.gcd_div_gcd_div_gcd hgpos
    rw [hs]
    unfold Fraction.simplify
    rw [if_neg hnum2]
    simp only [Fraction.gcd_eq_intGcd, hgcd1]
    simp

/-- C9: Simplification of a Rational is idempotent — for every fraction
with nonzero denominator, simplifying the once-simplified value returns
it unchanged, and the simplified value equals the original under the
class's canonical-form equality. -/
theorem claim_simplify_idempotent (f : Fraction) (hden : f.den ≠ 0) :
    f.simplify.simplify = f.simplify ∧ Fraction.equalsB f.simplify f = true := by
  refine ⟨Fraction.simplify_simplify f, ?_⟩
  unfold Fraction.equalsB
  rw [Fraction.simplify_simplify f]
  simp

/-- Witness for C9 at the concrete fraction 4/6. -/
theorem claim_simplify_idempotent_witness :
    (Fraction.mk 4 6).den ≠ 0 ∧
      ((Fraction.mk 4 6).simplify.simplify = (Fraction.mk 4 6).simplify ∧
        Fraction.equalsB (Fraction.mk 4 6).simplify (Fraction.mk 4 6) = true) :=
  ⟨by decide, claim_simplify_idempotent ⟨4, 6⟩ (by decide)⟩

/-- C8: Constructing a fraction with a zero denominator always fails
with the division-by-zero error class; dividing by a zero fraction
fails with the same error class; and every fraction the constructor
returns has a positive denominator (so the sign is carried on the
numerator) and the exact intended rational value. -/
theorem claim_fraction_construction (n d : Int) (a b f : Fraction) :
    (∃ msg, Fraction.make n 0 = .error (.divisionByZero msg)) ∧
      (b.num = 0 → ∃ msg,
        Fraction.divide a b = .error (.divisionByZero msg)) ∧
      (Fraction.make n d = .ok f →
        0 < f.den ∧ f.toRat = (n : ℚ) / (d : ℚ)) := by
  refine ⟨⟨"zero denominator", by simp [Fraction.make]⟩, ?_, ?_⟩
  · intro hb
    exact ⟨"division by zero", by simp [Fraction.divide, hb]⟩
  · intro hok
    unfold Fraction.make at hok
    by_cases hd : d = 0
    · simp [hd] at hok
    · rw [if_neg hd] at hok
      by_cases hneg : d < 0
      · rw [if_pos hneg] at hok
        injection hok with hok
        subst hok
        refine ⟨by simpa using hneg, ?_⟩
        unfold Fraction.toRat
        simp only [Int.cast_neg]
        rw [neg_div_neg_eq]
      · rw [if_neg hneg] at hok
        injection hok with hok
        subst hok
        exact ⟨lt_of_le_of_ne (not_lt.mp hneg) (Ne.symm hd), rfl⟩

/-- Witness for C8 at concrete inputs: constructing 3/0 fails, dividing
1/2 by 0/3 fails, and constructing 3/(-4) yields a positive
denominator carrying the value 3/(-4). -/
theorem claim_fraction_construction_witness :
    (∃ msg, Fraction.make 3 0 = .error (.divisionByZero msg)) ∧
      ((Fraction.mk 0 3).num = 0 → ∃ msg,
        Fraction.divide ⟨1, 2⟩ ⟨0, 3⟩ = .error (.divisionByZero msg)) ∧
      (Fraction.make 3 (-4) = .ok ⟨-3, 4⟩ →
        0 < (Fraction.mk (-3) 4).den ∧
          (Fraction.mk (-3) 4).toRat = ((3 : Int) : ℚ) / ((-4 : Int) : ℚ)) :=
  claim_fraction_construction 3 (-4) ⟨1, 2⟩ ⟨0, 3⟩ ⟨-3, 4⟩

/-- C5: Blocking correctness — for every composition, the paternal
grandfather is blocked iff the father is present, the paternal
grandmother iff the mother is present, the son's sons and son's
daughters iff sons are present, and the full brothers and full sisters
iff the father is present or sons or son's sons exist. -/
theorem claim_blocking_correct (h : Heirs) :
    (checkBlocking .paternalGrandfather h = true ↔ h.father = true) ∧
      (checkBlocking .paternalGrandmother h = true ↔ h.mother = true) ∧
      (checkBlocking .grandsonsFromSon h = true ↔ 0 < h.sons) ∧
      (checkBlocking .granddaughtersFromSon h = true ↔ 0 < h.sons) ∧
      (checkBlocking .fullBrothers h = true ↔
        (h.father = true ∨ 0 < h.sons ∨ 0 < h.grandsonsFromSon)) ∧
      (checkBlocking .fullSisters h = true ↔
        (h.father = true ∨ 0 < h.sons ∨ 0 < h.grandsonsFromSon)) := by
  simp [checkBlocking, blockingRule]

/-- C3: The Umariyyatan computation — for a composition of exactly one
spouse, both parents, and no descendants, siblings, or grandparents,
the spouse takes 1/2 (husband) or 1/4 (wife), the mother exactly one
third of the remainder after the spouse (not one third of the whole
estate), the father the rest of that remainder, the three shares sum to
exactly one, and in the wife case the shares are 1/4, 1/4, 1/2. -/
theorem claim_umariyyatan (h : Heirs)
    (hspouse : h.husband = true ∨ h.wife = true)
    (hxor : ¬(h.husband = true ∧ h.wife = true))
    (hfa : h.father = true) (hmo : h.mother = true)
    (hdesc : h.sons = 0 ∧ h.daughters = 0 ∧ h.grandsonsFromSon = 0 ∧
      h.granddaughtersFromSon = 0)
    (hsib : h.fullBrothers = 0 ∧ h.fullSisters = 0 ∧
      h.paternalBrothers = 0 ∧ h.paternalSisters = 0 ∧
      h.maternalBrothers = 0 ∧ h.maternalSisters = 0)
    (hgp : h.paternalGrandfather = false ∧ h.paternalGrandmother = false ∧
      h.maternalGrandmother = false) :
    ∃ u, calculateUmariyyatanShares h = some u ∧
      u.spouseShare = (if h.husband then (1 : ℚ)/2 else 1/4) ∧
      u.motherShare = (1 - u.spouseShare) / 3 ∧
      u.fatherShare = (1 - u.spouseShare) - u.motherShare ∧
      u.motherShare < 1/3 ∧
      u.spouseShare + u.motherShare + u.fatherShare = 1 ∧
      (h.wife = true →
        u.spouseShare = 1/4 ∧ u.motherShare = 1/4 ∧ u.fatherShare = 1/2) := by
  have hcheck : checkUmariyyatan h = true := by
    simp [checkUmariyyatan, hfa, hmo, hdesc.1, hdesc.2.1, hdesc.2.2.1,
      hdesc.2.2.2, hsib.1, hsib.2.1, hsib.2.2.1, hsib.2.2.2.1,
      hsib.2.2.2.2.1, hsib.2.2.2.2.2, hgp.1, hgp.2.1, hgp.2.2]
    rcases hspouse with hh | hw
    · exact Or.inl hh
    · exact Or.inr hw
  refine ⟨_, by rw [calculateUmariyyatanShares, if_pos hcheck], rfl, rfl,
    rfl, ?_, by ring, ?_⟩
  · by_cases hh : h.husband <;> simp [hh] <;> norm_num
  · intro hw
    have hh : h.husband = false := by
      cases hhb : h.husband
      · rfl
      · exact absurd ⟨hhb, hw⟩ hxor
    refine ⟨by simp [hh], ?_, ?_⟩ <;> simp [hh] <;> norm_num

/-- Wife plus both parents, the concrete Umariyyatan witness
composition. -/
def umarWitnessHeirs : Heirs :=
  { Heirs.none with
    wife := true
    wifeCount := 1
    father := true
    mother := true }

/-- Witness for C3: wife plus both parents yields shares 1/4, 1/4,
1/2. -/
theorem claim_umariyyatan_witness :
    ∃ u, calculateUmariyyatanShares umarWitnessHeirs = some u ∧
      u.spouseShare = (if umarWitnessHeirs.husband then (1 : ℚ)/2
        else 1/4) ∧
      u.motherShare = (1 - u.spouseShare) / 3 ∧
      u.fatherShare = (1 - u.spouseShare) - u.motherShare ∧
      u.motherShare < 1/3 ∧
      u.spouseShare + u.motherShare + u.fatherShare = 1 ∧
      (umarWitnessHeirs.wife = true →
        u.spouseShare = 1/4 ∧ u.motherShare = 1/4 ∧ u.fatherShare = 1/2) :=
  claim_umariyyatan umarWitnessHeirs (Or.inr rfl) (by decide) (by decide)
    (by decide) (by decide) (by decide) (by decide)

/-- Applying the Awl ratio termwise multiplies the sum by the ratio
(a null or zero share stays zero, which agrees with multiplication). -/
theorem sum_map_applyAwl (l : List ℚ) (r : ℚ) :
    (l.map (fun s => applyAwlToShare s r)).sum = l.sum * r := by
  induction l with
  | nil => simp
  | cons a t ih =>
      simp only [List.map_cons, List.sum_cons, ih]
      by_cases ha : a = 0
      · rw [applyAwlToShare, if_pos ha, ha]
        ring
      · rw [applyAwlToShare, if_neg ha]
        ring

/-- C4: Reduction law — when the fixed-share total strictly exceeds
one, the Awl ratio is exactly the reciprocal of the total, multiplying
every fixed share by the ratio yields a new total of exactly one, and
the ratio of any two nonzero adjusted shares equals the ratio of the
original shares. -/
theorem claim_awl_reduction (h : Heirs)
    (hgt : 1 < calculateFixedSharesTotal h) :
    calculateAwlRatio h = 1 / calculateFixedSharesTotal h ∧
      ((fixedShareTerms h).map
        (fun s => applyAwlToShare s (calculateAwlRatio h))).sum = 1 ∧
      ∀ s t : ℚ, s ≠ 0 → t ≠ 0 →
        applyAwlToShare s (calculateAwlRatio h) /
          applyAwlToShare t (calculateAwlRatio h) = s / t := by
  have hne : calculateFixedSharesTotal h ≠ 0 :=
    ne_of_gt (lt_trans one_pos hgt)
  have hr : calculateAwlRatio h = 1 / calculateFixedSharesTotal h := by
    unfold calculateAwlRatio
    rw [if_pos hgt]
  have hrne : calculateAwlRatio h ≠ 0 := by
    rw [hr]
    exact one_div_ne_zero hne
  refine ⟨hr, ?_, ?_⟩
  · rw [sum_map_applyAwl]
    show calculateFixedSharesTotal h * calculateAwlRatio h = 1
    rw [hr]
    field_simp
  · intro s t hs ht
    rw [applyAwlToShare, if_neg hs, applyAwlToShare, if_neg ht,
      mul_div_mul_right _ _ hrne]

/-- Husband, two full sisters and the mother: the fixed shares total
4/3, a reduction (Awl) composition. -/
def awlWitnessHeirs : Heirs :=
  { Heirs.none with
    husband := true
    fullSisters := 2
    mother := true }

/-- Witness for C4 at the concrete reduction composition whose fixed
total is 4/3. -/
theorem claim_awl_reduction_witness :
    1 < calculateFixedSharesTotal awlWitnessHeirs ∧
      (calculateAwlRatio awlWitnessHeirs =
          1 / calculateFixedSharesTotal awlWitnessHeirs ∧
        ((fixedShareTerms awlWitnessHeirs).map
          (fun s => applyAwlToShare s (calculateAwlRatio awlWitnessHeirs))).sum
            = 1 ∧
        ∀ s t : ℚ, s ≠ 0 → t ≠ 0 →
          applyAwlToShare s (calculateAwlRatio awlWitnessHeirs) /
            applyAwlToShare t (calculateAwlRatio awlWitnessHeirs) = s / t) := by
  have hgt : 1 < calculateFixedSharesTotal awlWitnessHeirs := by
    norm_num [calculateFixedSharesTotal, fixedShareTerms, awlWitnessHeirs,
      Heirs.none, calculateHusbandShare, wifeTotalShare, calculateMotherShare,
      hasChildren, hasMultipleSiblings, fatherFixedShare,
      grandfatherFixedShare, daughterShare, granddaughterShare,
      fullSisterShare, paternalSisterShare, isKalalah, maternalTotal,
      hasMaleDescendants]
  exact ⟨hgt, claim_awl_reduction awlWitnessHeirs hgt⟩

/-- C6: Residuary 2:1 law — for every positive remainder and every
tier selected by the resolver: with a same-parentage female category
present the remainder splits into units of 2 per male and 1 per
female, the per-male share is exactly twice the per-female share and
the male and female totals sum exactly to the remainder; with no
female counterpart the whole remainder goes to the males, split evenly
over the male head-count. -/
theorem claim_asaba_distribution (h : Heirs) (k : AsabaKey) (rem : ℚ)
    (hk : determineAsaba h = some k) (hrem : 0 < rem) :
    (0 < femaleCountFor h k →
      (distributeAsaba rem (asabaCount h k) (femaleCountFor h k)).perFemaleShare
          = rem / (asabaCount h k * 2 + femaleCountFor h k) ∧
        (distributeAsaba rem (asabaCount h k)
          (femaleCountFor h k)).perMaleShare =
          2 * (distributeAsaba rem (asabaCount h k)
            (femaleCountFor h k)).perFemaleShare ∧
        (distributeAsaba rem (asabaCount h k) (femaleCountFor h k)).maleShare +
          (distributeAsaba rem (asabaCount h k)
            (femaleCountFor h k)).femaleShare = rem) ∧
      (femaleCountFor h k = 0 →
        (distributeAsaba rem (asabaCount h k) (femaleCountFor h k)).maleShare
            = rem ∧
          (distributeAsaba rem (asabaCount h k)
            (femaleCountFor h k)).perMaleShare = rem / (asabaCount h k)) := by
  have helig : asabaEligible h k = true := scanAsaba_eligible h _ k hk
  have hm : asabaCount h k ≠ 0 := by
    unfold asabaEligible at helig
    simp at helig
    exact helig.1
  have hremne : rem ≠ 0 := ne_of_gt hrem
  constructor
  · intro hf
    have hfne : femaleCountFor h k ≠ 0 := by omega
    have hts : ((asabaCount h k * 2 + femaleCountFor h k : ℕ) : ℚ) ≠ 0 := by
      have : 0 < asabaCount h k * 2 + femaleCountFor h k :=
        Nat.add_pos_right _ hf
      exact_mod_cast this.ne'
    unfold distributeAsaba
    rw [if_neg hremne, if_neg hfne]
    refine ⟨by push_cast; ring_nf, by simp only; ring, ?_⟩
    simp only
    field_simp
    push_cast
    ring
  · intro hf
    unfold distributeAsaba
    rw [if_neg hremne, if_pos hf]
    exact ⟨rfl, rfl⟩

/-- One son and one daughter: the residuary witness composition. -/
def asabaWitnessHeirs : Heirs :=
  { Heirs.none with
    sons := 1
    daughters := 1 }

/-- Witness for C6: with one son and one daughter and remainder 1 the
per-male share is twice the per-female share and the two totals sum to
the remainder. -/
theorem claim_asaba_distribution_witness :
    determineAsaba asabaWitnessHeirs = some AsabaKey.sons ∧ (0 : ℚ) < 1 ∧
      ((0 < femaleCountFor asabaWitnessHeirs .sons →
        (distributeAsaba 1 (asabaCount asabaWitnessHeirs .sons)
          (femaleCountFor asabaWitnessHeirs .sons)).perFemaleShare =
            1 / (asabaCount asabaWitnessHeirs .sons * 2 +
              femaleCountFor asabaWitnessHeirs .sons) ∧
          (distributeAsaba 1 (asabaCount asabaWitnessHeirs .sons)
            (femaleCountFor asabaWitnessHeirs .sons)).perMaleShare =
            2 * (distributeAsaba 1 (asabaCount asabaWitnessHeirs .sons)
              (femaleCountFor asabaWitnessHeirs .sons)).perFemaleShare ∧
          (distributeAsaba 1 (asabaCount asabaWitnessHeirs .sons)
            (femaleCountFor asabaWitnessHeirs .sons)).maleShare +
            (distributeAsaba 1 (asabaCount asabaWitnessHeirs .sons)
              (femaleCountFor asabaWitnessHeirs .sons)).femaleShare = 1) ∧
        (femaleCountFor asabaWitnessHeirs .sons = 0 →
          (distributeAsaba 1 (asabaCount asabaWitnessHeirs .sons)
            (femaleCountFor asabaWitnessHeirs .sons)).maleShare = 1 ∧
            (distributeAsaba 1 (asabaCount asabaWitnessHeirs .sons)
              (femaleCountFor asabaWitnessHeirs .sons)).perMaleShare =
              1 / (asabaCount asabaWitnessHeirs .sons))) :=
  ⟨by decide, one_pos,
    claim_asaba_distribution asabaWitnessHeirs .sons 1 (by decide) one_pos⟩

/-- C10: The wife-share computation never divides by zero — with the
wife present the wife count is defaulted to 1 when the multiplicity
field is zero, the division succeeds, and the per-wife value is the
total wife share divided by the effective (at least 1) count. -/
theorem claim_wife_share_total (h : Heirs) (hw : h.wife = true) :
    ∃ p : Fraction × Nat, calculateWifeShareF h = .ok p ∧ 1 ≤ p.2 ∧
      p.1.toRat = wifeTotalShare h / (p.2 : ℚ) ∧
      (h.wifeCount = 0 → p.2 = 1) ∧
      (h.wifeCount ≠ 0 → p.2 = h.wifeCount) := by
  unfold calculateWifeShareF
  set wc : Nat := if h.wifeCount = 0 then 1 else h.wifeCount with hwc
  have hwcpos : 1 ≤ wc := by
    rw [hwc]
    by_cases h0 : h.wifeCount = 0
    · simp [h0]
    · simp [h0]
      omega
  have hwcne : (wc : Int) ≠ 0 := by exact_mod_cast Nat.one_le_iff_ne_zero.mp hwcpos
  set ts : Fraction := if hasChildren h then (⟨1, 8⟩ : Fraction) else ⟨1, 4⟩
    with hts
  have htsden : 0 < ts.den := by
    rw [hts]
    by_cases hc : hasChildren h <;> simp [hc]
  have hdenpos : 0 < ts.den * (wc : Int) := by
    apply mul_pos htsden
    exact_mod_cast hwcpos
  have hmake : Fraction.make (ts.num * 1) (ts.den * (wc : Int)) =
      .ok ⟨ts.num * 1, ts.den * (wc : Int)⟩ := by
    unfold Fraction.make
    rw [if_neg (ne_of_gt hdenpos), if_neg (not_lt.mpr (le_of_lt hdenpos))]
  have hdiv : Fraction.divide ts ⟨(wc : Int), 1⟩ =
      .ok (Fraction.simplify ⟨ts.num * 1, ts.den * (wc : Int)⟩) := by
    unfold Fraction.divide
    rw [if_neg hwcne]
    simp only [hmake, Except.map]
  refine ⟨(Fraction.simplify ⟨ts.num * 1, ts.den * (wc : Int)⟩, wc),
    ?_, hwcpos, ?_, ?_, ?_⟩
  · show Except.map (fun f => (f, wc)) (ts.divide ⟨(wc : Int), 1⟩) = _
    rw [hdiv]
    rfl
  · have hpre : (Fraction.mk (ts.num * 1) (ts.den * (wc : Int))).den ≠ 0 :=
      ne_of_gt hdenpos
    rw [Fraction.simplify_toRat _ hpre]
    unfold Fraction.toRat
    simp only [mul_one, Int.cast_mul]
    have h1 : wifeTotalShare h = (ts.num : ℚ) / (ts.den : ℚ) := by
      rw [hts]
      unfold wifeTotalShare
      by_cases hc : hasChildren h <;> simp [hc] <;> norm_num
    rw [h1, div_div]
    push_cast
    ring_nf
  · intro h0
    simp [hwc, h0]
  · intro h0
    simp [hwc, h0]

/-- Wife present with a zero multiplicity field: the witness
composition for the division-safety claim. -/
def wifeWitnessHeirs : Heirs :=
  { Heirs.none with
    wife := true
    wifeCount := 0 }

/-- Witness for C10 at a wife with a zero multiplicity field. -/
theorem claim_wife_share_total_witness :
    wifeWitnessHeirs.wife = true ∧
      ∃ p : Fraction × Nat, calculateWifeShareF wifeWitnessHeirs = .ok p ∧
        1 ≤ p.2 ∧
        p.1.toRat = wifeTotalShare wifeWitnessHeirs / (p.2 : ℚ) ∧
        (wifeWitnessHeirs.wifeCount = 0 → p.2 = 1) ∧
        (wifeWitnessHeirs.wifeCount ≠ 0 → p.2 = wifeWitnessHeirs.wifeCount) :=
  ⟨rfl, claim_wife_share_total wifeWitnessHeirs rfl⟩

/-- C7: The residuary resolver scans the priority list sons, son's
sons, father, paternal grandfather, full brothers, paternal brothers,
nephews (full then paternal), uncles (full then paternal) in order and
selects exactly the first present, unblocked category; it returns null
when no category is present and unblocked; and the full residuary
computation reports no distribution exactly when the resolver returned
null or the remainder is zero or negative. -/
theorem claim_asaba_resolver (h : Heirs) :
    (∀ k, determineAsaba h = some k ↔
      ∃ l1 l2, asabaPriorityList = l1 ++ k :: l2 ∧
        asabaEligible h k = true ∧
        ∀ k' ∈ l1, asabaEligible h k' = false) ∧
      (determineAsaba h = Option.none ↔
        ∀ k ∈ asabaPriorityList, asabaEligible h k = false) ∧
      (calculateAsaba h = Option.none ↔
        determineAsaba h = Option.none ∨ calculateRemainder h ≤ 0) := by
  refine ⟨fun k => scanAsaba_eq_some_iff h asabaPriorityList k,
    scanAsaba_eq_none_iff h asabaPriorityList, ?_⟩
  unfold calculateAsaba
  cases hda : determineAsaba h with
  | none => simp
  | some k =>
      simp only
      constructor
      · intro hc
        by_cases hneg : calculateRemainder h < 0 ∨ calculateRemainder h = 0
        · right
          rcases hneg with hlt | heq
          · exact le_of_lt hlt
          · exact le_of_eq heq
        · rw [if_neg hneg] at hc
          cases hc
      · rintro (hnone | hle)
        · cases hnone
        · rw [if_pos ?_]
          rcases lt_or_eq_of_le hle with hlt | heq
          · exact Or.inl hlt
          · exact Or.inr heq

/-- Mother plus one maternal brother and one maternal sister: the
composition on which the Radd addends double-count the pooled maternal
share. -/
def raddBugHeirs : Heirs :=
  { Heirs.none with
    mother := true
    maternalBrothers := 1
    maternalSisters := 1 }

/-- C2 (failing-input evaluation): with the mother, one maternal
brother and one maternal sister, the remainder is 1/2 and no residuary
category exists, yet the addends computed for the three recipients sum
to 5/6 — `calculateRaddShareForRecipient` re-derives each base share
against the singleton list `[recipient]`, so the pooled maternal share
is counted once in the recipients total but twice among the addends. -/
theorem claim_radd_sum_bug :
    calculateRemainder raddBugHeirs = 1/2 ∧
      determineAsaba raddBugHeirs = Option.none ∧
      getRaddRecipients raddBugHeirs =
        [.mother, .maternalBrothers, .maternalSisters] ∧
      calculateRaddRecipientsTotal raddBugHeirs
        (getRaddRecipients raddBugHeirs) = 1/2 ∧
      ((getRaddRecipients raddBugHeirs).map (fun r =>
        calculateRaddShareForRecipient r raddBugHeirs
          (calculateRemainder raddBugHeirs)
          (calculateRaddRecipientsTotal raddBugHeirs
            (getRaddRecipients raddBugHeirs)))).sum = 5/6 ∧
      (5/6 : ℚ) ≠ 1/2 := by
  have hrec : getRaddRecipients raddBugHeirs =
      [.mother, .maternalBrothers, .maternalSisters] := by decide
  have hrem : calculateRemainder raddBugHeirs = 1/2 := by
    norm_num [calculateRemainder, calculateFixedSharesTotal, fixedShareTerms,
      raddBugHeirs, Heirs.none, calculateHusbandShare, wifeTotalShare,
      calculateMotherShare, hasChildren, hasMultipleSiblings,
      fatherFixedShare, grandfatherFixedShare, daughterShare,
      granddaughterShare, fullSisterShare, paternalSisterShare, isKalalah,
      maternalTotal, hasMaleDescendants]
  have hS1 : shouldAddMaternalSiblingsShare .maternalBrothers
      [RaddRecipient.maternalBrothers] = true := by decide
  have hS2 : shouldAddMaternalSiblingsShare .maternalSisters
      [RaddRecipient.maternalSisters] = true := by decide
  have hS3 : shouldAddMaternalSiblingsShare .maternalBrothers
      [RaddRecipient.mother, .maternalBrothers, .maternalSisters]
        = true := by decide
  have hS4 : shouldAddMaternalSiblingsShare .maternalSisters
      [RaddRecipient.mother, .maternalBrothers, .maternalSisters]
        = false := by decide
  have htot : calculateRaddRecipientsTotal raddBugHeirs
      [RaddRecipient.mother, .maternalBrothers, .maternalSisters]
        = 1/2 := by
    norm_num [calculateRaddRecipientsTotal, getRecipientRaddShare,
      hS3, hS4, maternalSiblingsRaddShare,
      calculateMotherShare, hasChildren, hasMultipleSiblings, maternalTotal,
      raddBugHeirs, Heirs.none]
  refine ⟨hrem, by decide, hrec, by rw [hrec]; exact htot, ?_, by norm_num⟩
  rw [hrec, hrem, htot]
  norm_num [calculateRaddShareForRecipient, getRecipientRaddShare,
    hS1, hS2, maternalSiblingsRaddShare,
    calculateMotherShare, hasChildren, hasMultipleSiblings, maternalTotal,
    raddBugHeirs, Heirs.none]

theorem sum_snd_guard (b : Prop) [Decidable b] (c : HeirCat) (x : ℚ) :
    (((if b then [(c, x)] else []) : List (HeirCat × ℚ)).map Prod.snd).sum =
      if b then x else 0 := by
  by_cases hb : b <;> simp [hb]

theorem asabaMale_zero (h : Heirs) (k : AsabaKey)
    (hn : calculateAsaba h = Option.none) : asabaMaleShareFor h k = 0 := by
  simp [asabaMaleShareFor, hn]

theorem asabaFemale_zero (h : Heirs) (k : AsabaKey)
    (hn : calculateAsaba h = Option.none) : asabaFemaleShareFor h k = 0 := by
  simp [asabaFemaleShareFor, hn]

theorem calculateAsaba_none_of_nonpos (h : Heirs)
    (hle : calculateRemainder h ≤ 0) : calculateAsaba h = Option.none := by
  unfold calculateAsaba
  cases hda : determineAsaba h with
  | none => rfl
  | some k =>
      simp only
      rw [if_pos]
      rcases lt_or_eq_of_le hle with hlt | heq
      · exact Or.inl hlt
      · exact Or.inr heq

theorem raddShareOf_zero_not_applied (h : Heirs) (r : RaddRecipient)
    (hn : ¬(raddApplies h = true)) : raddShareOf h r = 0 := by
  unfold raddShareOf
  rw [if_neg]
  intro hc
  exact hn hc.1

theorem maternalRaddAddend_zero_not_applied (h : Heirs)
    (hn : ¬(raddApplies h = true)) : maternalRaddAddend h = 0 := by
  unfold maternalRaddAddend
  by_cases hb : h.maternalBrothers > 0 <;>
    simp [hb, raddShareOf_zero_not_applied h _ hn]

theorem raddApplies_false_of_asaba (h : Heirs) (k : AsabaKey)
    (hk : determineAsaba h = some k) : ¬(raddApplies h = true) := by
  unfold raddApplies
  simp [hk]

theorem raddApplies_false_of_nonpos (h : Heirs)
    (hle : calculateRemainder h ≤ 0) : ¬(raddApplies h = true) := by
  unfold raddApplies
  simp
  intro hpos
  exact absurd hpos (not_lt.mpr hle)

theorem awlRatio_one (h : Heirs)
    (hle : ¬(1 < calculateFixedSharesTotal h)) : calculateAwlRatio h = 1 := by
  unfold calculateAwlRatio
  rw [if_neg hle]

theorem guard_decomp (b : Prop) [Decidable b] (x r a : ℚ) (ha : ¬b → a = 0) :
    (if b then x * r + a else 0) = (if b then x else 0) * r + a := by
  by_cases hb : b <;> simp [hb, ha]

theorem sum_snd_guard2 (b c : Prop) [Decidable b] [Decidable c]
    (c1 c2 : HeirCat) (x y : ℚ) :
    (((if b then [(c1, x)] else if c then [(c2, y)] else []) :
      List (HeirCat × ℚ)).map Prod.snd).sum =
      if b then x else if c then y else 0 := by
  by_cases hb : b
  · simp [hb]
  · by_cases hc : c <;> simp [hb, hc]

theorem guard_mul (b : Prop) [Decidable b] (x r : ℚ) :
    (if b then x * r else 0) = (if b then x else 0) * r := by
  by_cases hb : b <;> simp [hb]

theorem guard2_mul (b c : Prop) [Decidable b] [Decidable c] (x y r : ℚ) :
    (if b then x * r else if c then y * r else 0) =
      (if b then x else if c then y else 0) * r := by
  by_cases hb : b
  · simp [hb]
  · by_cases hc : c <;> simp [hb, hc]

theorem guard_nat_nest_mul (b : Prop) [Decidable b] (n : ℕ) (x r : ℚ) :
    (if b then if n > 0 then 0 else x * r else 0) =
      (if b ∧ n = 0 then x else 0) * r := by
  by_cases hb : b
  · by_cases hn : n = 0
    · simp [hb, hn]
    · simp [hb, hn, Nat.pos_of_ne_zero hn]
  · simp [hb]

theorem guard_nat_nest_mul2 (n : ℕ) (m : ℕ) (x r : ℚ) :
    (if n > 0 then if m > 0 then 0 else x * r else 0) =
      (if n > 0 ∧ m = 0 then x else 0) * r := by
  by_cases hn : n = 0
  · simp [hn]
  · by_cases hm : m = 0
    · simp [Nat.pos_of_ne_zero hn, hm]
    · simp [Nat.pos_of_ne_zero hn, hm, Nat.pos_of_ne_zero hm]

theorem guard_inner_mul (b c : Prop) [Decidable b] [Decidable c] (x r : ℚ) :
    (if b then if c then 0 else x * r else 0) =
      (if b then if c then 0 else x else 0) * r := by
  by_cases hb : b
  · by_cases hc : c <;> simp [hb, hc]
  · simp [hb]

theorem fixedTotal_decomp (h : Heirs) :
    calculateFixedSharesTotal h =
      (if h.husband then calculateHusbandShare h
        else if h.wife then wifeTotalShare h else 0)
      + ((if h.mother then calculateMotherShare h else 0)
      + ((if h.father then (fatherFixedShare h).getD 0 else 0)
      + ((if h.paternalGrandfather ∧ ¬h.father then
           (grandfatherFixedShare h).getD 0 else 0)
      + ((if (h.paternalGrandmother ∨ h.maternalGrandmother) ∧ ¬h.mother then
           (1 : ℚ)/6 else 0)
      + ((if h.daughters > 0 ∧ h.sons = 0 then (daughterShare h).getD 0 else 0)
      + ((if h.granddaughtersFromSon > 0 ∧ h.sons = 0 then
           (if h.grandsonsFromSon > 0 then 0
            else (granddaughterShare h).getD 0) else 0)
      + ((if h.fullSisters > 0 ∧ h.fullBrothers = 0 ∧ ¬h.father ∧
             h.sons = 0 ∧ h.grandsonsFromSon = 0 then
           (fullSisterShare h).getD 0 else 0)
      + ((if h.paternalSisters > 0 ∧ h.paternalBrothers = 0 ∧ ¬h.father ∧
             h.sons = 0 ∧ h.grandsonsFromSon = 0 ∧ h.fullBrothers = 0 then
           (paternalSisterShare h).getD 0 else 0)
      + (if isKalalah h ∧ maternalTotal h > 0 then
           (if maternalTotal h = 1 then (1 : ℚ)/6 else 1/3) else 0)))))))))
      := by
  simp [calculateFixedSharesTotal, fixedShareTerms]

theorem sumFinal_nonpos (h : Heirs)
    (hum : calculateUmariyyatanShares h = Option.none)
    (hrem : calculateRemainder h ≤ 0) : sumFinalFractions h = 1 := by
  have hF1 : 1 ≤ calculateFixedSharesTotal h := by
    unfold calculateRemainder at hrem
    linarith
  have hna : calculateAsaba h = Option.none := calculateAsaba_none_of_nonpos h hrem
  have hnr : ¬(raddApplies h = true) := raddApplies_false_of_nonpos h hrem
  have hFr : calculateFixedSharesTotal h * calculateAwlRatio h = 1 := by
    unfold calculateAwlRatio
    rcases lt_or_eq_of_le hF1 with hlt | heq
    · rw [if_pos hlt]
      have : calculateFixedSharesTotal h ≠ 0 := by linarith
      field_simp
    · rw [if_neg (by rw [← heq]; exact lt_irrefl 1), ← heq, mul_one]
  have hFsum := fixedTotal_decomp h
  simp only [sumFinalFractions, allocationEntries, hum]
  simp only [List.map_append, List.sum_append, sum_snd_guard, sum_snd_guard2]
  simp only [asabaMale_zero h _ hna, asabaFemale_zero h _ hna,
    raddShareOf_zero_not_applied h _ hnr,
    maternalRaddAddend_zero_not_applied h hnr, add_zero, ite_self]
  rw [guard2_mul, guard_mul, guard_mul, guard_mul, guard_mul,
    guard_nat_nest_mul2, guard_inner_mul, guard_mul, guard_mul, guard_mul]
  linear_combination hFr - calculateAwlRatio h * hFsum

theorem calculateAsaba_some (h : Heirs) (k : AsabaKey)
    (hk : determineAsaba h = some k) (hrem : 0 < calculateRemainder h) :
    calculateAsaba h = some (k, distributeAsaba (calculateRemainder h)
      (asabaCount h k) (femaleCountFor h k)) := by
  unfold calculateAsaba
  rw [hk]
  simp only
  rw [if_neg]
  push_neg
  exact ⟨le_of_lt hrem, ne_of_gt hrem⟩

theorem asabaMaleShareFor_eq (h : Heirs) (k : AsabaKey) (d : AsabaDist)
    (hc : calculateAsaba h = some (k, d)) (x : AsabaKey) :
    asabaMaleShareFor h x = if k = x then d.maleShare else 0 := by
  simp [asabaMaleShareFor, hc]

theorem asabaFemaleShareFor_eq (h : Heirs) (k : AsabaKey) (d : AsabaDist)
    (hc : calculateAsaba h = some (k, d)) (x : AsabaKey) :
    asabaFemaleShareFor h x = if k = x then d.femaleShare else 0 := by
  simp [asabaFemaleShareFor, hc]

theorem dist_female_zero (rem : ℚ) (m : ℕ) :
    (distributeAsaba rem m 0).femaleShare = 0 := by
  unfold distributeAsaba
  by_cases hr : rem = 0
  · rw [if_pos hr]
  · rw [if_neg hr, if_pos rfl]

theorem dist_male_f0 (rem : ℚ) (m : ℕ) (hr : rem ≠ 0) :
    (distributeAsaba rem m 0).maleShare = rem := by
  unfold distributeAsaba
  rw [if_neg hr, if_pos rfl]

theorem dist_sum (rem : ℚ) (m f : ℕ) (hm : m ≠ 0) (hr : rem ≠ 0) :
    (distributeAsaba rem m f).maleShare +
      (distributeAsaba rem m f).femaleShare = rem := by
  unfold distributeAsaba
  rw [if_neg hr]
  by_cases hf : f = 0
  · rw [if_pos hf]
    simp
  · rw [if_neg hf]
    simp only
    have hts : ((m * 2 + f : ℕ) : ℚ) ≠ 0 := by
      have : 0 < m * 2 + f := by omega
      exact_mod_cast this.ne'
    field_simp
    push_cast
    ring

theorem sumFinal_asaba_sons (h : Heirs)
    (hum : calculateUmariyyatanShares h = Option.none)
    (hk : determineAsaba h = some .sons)
    (hrem : 0 < calculateRemainder h) : sumFinalFractions h = 1 := by
  have helig := scanAsaba_eligible h _ _ hk
  have hsons : h.sons ≠ 0 := by
    simp [asabaEligible, asabaCount] at helig
    exact helig.1
  have hc := calculateAsaba_some h _ hk hrem
  have hnr : ¬(raddApplies h = true) := raddApplies_false_of_asaba h _ hk
  have hFlt : ¬(1 < calculateFixedSharesTotal h) := by
    unfold calculateRemainder at hrem
    push_neg
    linarith
  have hr1 : calculateAwlRatio h = 1 := awlRatio_one h hFlt
  simp only [sumFinalFractions, allocationEntries, hum]
  simp only [List.map_append, List.sum_append, sum_snd_guard, sum_snd_guard2]
  simp only [asabaMaleShareFor_eq h _ _ hc, asabaFemaleShareFor_eq h _ _ hc,
    raddShareOf_zero_not_applied h _ hnr,
    maternalRaddAddend_zero_not_applied h hnr, hr1, mul_one, add_zero,
    reduceCtorEq, reduceIte, ite_self]
  have hspos : 0 < h.sons := Nat.pos_of_ne_zero hsons
  have hFsum := fixedTotal_decomp h
  have hremEq : calculateRemainder h = 1 - calculateFixedSharesTotal h := rfl
  have hremne : calculateRemainder h ≠ 0 := ne_of_gt hrem
  simp only [hspos, hsons, asabaCount, femaleCountFor, if_true, if_false,
    and_false, false_and, ite_self, and_true, true_and, if_pos hspos,
    not_false_iff] at hFsum ⊢
  rcases Nat.eq_zero_or_pos h.daughters with hd | hd
  · simp only [hd, lt_irrefl, if_false, dist_male_f0 _ _ hremne,
      dist_female_zero, add_zero, ite_self]
    linarith [hFsum, hremEq]
  · have hms := dist_sum (calculateRemainder h) h.sons h.daughters hsons
      hremne
    simp only [if_pos hd]
    linarith [hFsum, hremEq, hms]

theorem sumFinal_asaba_grandsons (h : Heirs)
    (hum : calculateUmariyyatanShares h = Option.none)
    (hk : determineAsaba h = some .grandsonsFromSon)
    (hrem : 0 < calculateRemainder h) : sumFinalFractions h = 1 := by
  have helig := scanAsaba_eligible h _ _ hk
  have hgs : h.grandsonsFromSon ≠ 0 ∧ ¬(h.sons > 0) := by
    simpa [asabaEligible, asabaCount, asabaScanBlocked] using helig
  have hs0 : h.sons = 0 := by omega
  have hgspos : 0 < h.grandsonsFromSon := Nat.pos_of_ne_zero hgs.1
  have hc := calculateAsaba_some h _ hk hrem
  have hnr : ¬(raddApplies h = true) := raddApplies_false_of_asaba h _ hk
  have hFlt : ¬(1 < calculateFixedSharesTotal h) := by
    unfold calculateRemainder at hrem
    push_neg
    linarith
  have hr1 : calculateAwlRatio h = 1 := awlRatio_one h hFlt
  simp only [sumFinalFractions, allocationEntries, hum]
  simp only [List.map_append, List.sum_append, sum_snd_guard, sum_snd_guard2]
  simp only [asabaMaleShareFor_eq h _ _ hc, asabaFemaleShareFor_eq h _ _ hc,
    raddShareOf_zero_not_applied h _ hnr,
    maternalRaddAddend_zero_not_applied h hnr, hr1, mul_one, add_zero,
    reduceCtorEq, reduceIte, ite_self]
  have hFsum := fixedTotal_decomp h
  have hremEq : calculateRemainder h = 1 - calculateFixedSharesTotal h := rfl
  have hremne : calculateRemainder h ≠ 0 := ne_of_gt hrem
  simp only [hs0, hgs.1, hgspos, asabaCount, femaleCountFor, if_true,
    if_false, and_false, false_and, ite_self, and_true, true_and,
    lt_self_iff_false, if_pos hgspos, not_false_iff, eq_self_iff_true]
    at hFsum ⊢
  rcases Nat.eq_zero_or_pos h.granddaughtersFromSon with hd | hd
  · simp only [hd, lt_irrefl, if_false, dist_male_f0 _ _ hremne,
      dist_female_zero, add_zero, ite_self]
    linarith [hFsum, hremEq]
  · have hms := dist_sum (calculateRemainder h) h.grandsonsFromSon
      h.granddaughtersFromSon hgs.1 hremne
    simp only [if_pos hd]
    linarith [hFsum, hremEq, hms]

/-- Decomposition of a successful scan into the per-key eligibility
outcomes of the priority list. -/
theorem determineAsaba_cases (h : Heirs) (k : AsabaKey)
    (hk : determineAsaba h = some k) :
    ∃ l1 l2, asabaPriorityList = l1 ++ k :: l2 ∧
      asabaEligible h k = true ∧ ∀ k' ∈ l1, asabaEligible h k' = false :=
  (scanAsaba_eq_some_iff h _ k).mp hk

theorem determineAsaba_eq (h : Heirs) :
    determineAsaba h =
      if asabaEligible h .sons then some .sons
      else if asabaEligible h .grandsonsFromSon then some .grandsonsFromSon
      else if asabaEligible h .father then some .father
      else if asabaEligible h .paternalGrandfather then
        some .paternalGrandfather
      else if asabaEligible h .fullBrothers then some .fullBrothers
      else if asabaEligible h .paternalBrothers then some .paternalBrothers
      else if asabaEligible h .nephewsFullBrothers then
        some .nephewsFullBrothers
      else if asabaEligible h .nephewsPaternalBrothers then
        some .nephewsPaternalBrothers
      else if asabaEligible h .unclesFull then some .unclesFull
      else if asabaEligible h .unclesPaternal then some .unclesPaternal
      else Option.none := rfl

set_option maxHeartbeats 1000000 in
theorem sumFinal_asaba_father (h : Heirs)
    (hum : calculateUmariyyatanShares h = Option.none)
    (hk : determineAsaba h = some .father)
    (hrem : 0 < calculateRemainder h) : sumFinalFractions h = 1 := by
  have hc := calculateAsaba_some h _ hk hrem
  have hnr : ¬(raddApplies h = true) := raddApplies_false_of_asaba h _ hk
  rw [determineAsaba_eq] at hk
  split_ifs at hk with e1 e2 e3 <;>
    first
    | (injection hk with hh; exact AsabaKey.noConfusion hh)
    | exact Option.noConfusion hk
    | skip
  have hs0 : h.sons = 0 := by
    simpa [asabaEligible, asabaCount, asabaScanBlocked] using e1
  have hgs0 : h.grandsonsFromSon = 0 := by
    have := e2
    simp [asabaEligible, asabaCount, asabaScanBlocked, hs0] at this
    exact this
  have hfa : h.father = true := by
    have := e3
    simp [asabaEligible, asabaCount, asabaScanBlocked] at this
    exact this
  have hkal : isKalalah h = false := by simp [isKalalah, hfa]
  have hFlt : ¬(1 < calculateFixedSharesTotal h) := by
    unfold calculateRemainder at hrem
    push_neg
    linarith
  have hr1 : calculateAwlRatio h = 1 := awlRatio_one h hFlt
  simp only [sumFinalFractions, allocationEntries, hum]
  simp only [List.map_append, List.sum_append, sum_snd_guard, sum_snd_guard2]
  simp only [asabaMaleShareFor_eq h _ _ hc, asabaFemaleShareFor_eq h _ _ hc,
    raddShareOf_zero_not_applied h _ hnr,
    maternalRaddAddend_zero_not_applied h hnr, hr1, mul_one, add_zero,
    reduceCtorEq, reduceIte, ite_self]
  have hFsum := fixedTotal_decomp h
  have hremEq : calculateRemainder h = 1 - calculateFixedSharesTotal h := rfl
  have hremne : calculateRemainder h ≠ 0 := ne_of_gt hrem
  have hmale : (distributeAsaba (calculateRemainder h)
      (asabaCount h .father) (femaleCountFor h .father)).maleShare =
        calculateRemainder h := by
    simp only [asabaCount, femaleCountFor, hfa, if_true]
    exact dist_male_f0 _ _ hremne
  simp only [hs0, hgs0, hfa, hkal, hmale, if_true, if_false, and_false,
    false_and, ite_self, and_true, true_and, lt_self_iff_false,
    not_true, not_false_iff, eq_self_iff_true, Bool.false_eq_true,
    add_zero] at hFsum ⊢
  linarith [hFsum, hremEq]

set_option maxHeartbeats 1000000 in
theorem sumFinal_asaba_pgf (h : Heirs)
    (hum : calculateUmariyyatanShares h = Option.none)
    (hk : determineAsaba h = some .paternalGrandfather)
    (hrem : 0 < calculateRemainder h) : sumFinalFractions h = 1 := by
  have hc := calculateAsaba_some h _ hk hrem
  have hnr : ¬(raddApplies h = true) := raddApplies_false_of_asaba h _ hk
  rw [determineAsaba_eq] at hk
  split_ifs at hk with e1 e2 e3 e4 <;>
    first
    | (injection hk with hh; exact AsabaKey.noConfusion hh)
    | exact Option.noConfusion hk
    | skip
  have hs0 : h.sons = 0 := by
    simpa [asabaEligible, asabaCount, asabaScanBlocked] using e1
  have hgs0 : h.grandsonsFromSon = 0 := by
    have := e2
    simp [asabaEligible, asabaCount, asabaScanBlocked, hs0] at this
    exact this
  have hfa0 : h.father = false := by
    have := e3
    simp [asabaEligible, asabaCount, asabaScanBlocked] at this
    exact this
  have hpgf : h.paternalGrandfather = true := by
    have := e4
    simp [asabaEligible, asabaCount, asabaScanBlocked, hfa0] at this
    exact this
  have hFlt : ¬(1 < calculateFixedSharesTotal h) := by
    unfold calculateRemainder at hrem
    push_neg
    linarith
  have hr1 : calculateAwlRatio h = 1 := awlRatio_one h hFlt
  simp only [sumFinalFractions, allocationEntries, hum]
  simp only [List.map_append, List.sum_append, sum_snd_guard, sum_snd_guard2]
  simp only [asabaMaleShareFor_eq h _ _ hc, asabaFemaleShareFor_eq h _ _ hc,
    raddShareOf_zero_not_applied h _ hnr,
    maternalRaddAddend_zero_not_applied h hnr, hr1, mul_one, add_zero,
    reduceCtorEq, reduceIte, ite_self]
  have hFsum := fixedTotal_decomp h
  have hremEq : calculateRemainder h = 1 - calculateFixedSharesTotal h := rfl
  have hremne : calculateRemainder h ≠ 0 := ne_of_gt hrem
  have hmale : (distributeAsaba (calculateRemainder h)
      (asabaCount h .paternalGrandfather)
      (femaleCountFor h .paternalGrandfather)).maleShare =
        calculateRemainder h := by
    simp only [asabaCount, femaleCountFor, hpgf, if_true]
    exact dist_male_f0 _ _ hremne
  simp only [hs0, hgs0, hfa0, hpgf, hmale, if_true, if_false, and_false,
    false_and, ite_self, and_true, true_and, lt_self_iff_false,
    not_true, not_false_iff, eq_self_iff_true, Bool.false_eq_true,
    add_zero] at hFsum ⊢
  linarith [hFsum, hremEq]

set_option maxHeartbeats 1000000 in
theorem sumFinal_asaba_fullBrothers (h : Heirs)
    (hum : calculateUmariyyatanShares h = Option.none)
    (hk : determineAsaba h = some .fullBrothers)
    (hrem : 0 < calculateRemainder h) : sumFinalFractions h = 1 := by
  have hc := calculateAsaba_some h _ hk hrem
  have hnr : ¬(raddApplies h = true) := raddApplies_false_of_asaba h _ hk
  rw [determineAsaba_eq] at hk
  split_ifs at hk with e1 e2 e3 e4 e5 <;>
    first
    | (injection hk with hh; exact AsabaKey.noConfusion hh)
    | exact Option.noConfusion hk
    | skip
  have he5 := e5
  simp [asabaEligible, asabaCount, asabaScanBlocked] at he5
  have hfb : h.fullBrothers ≠ 0 := he5.1
  have hfa0 : h.father = false := by
    have := he5.2.1
    simp [this]
  have hs0 : h.sons = 0 := by omega
  have hgs0 : h.grandsonsFromSon = 0 := by
    have := he5.2.2.2
    omega
  have hfbpos : 0 < h.fullBrothers := Nat.pos_of_ne_zero hfb
  have hFlt : ¬(1 < calculateFixedSharesTotal h) := by
    unfold calculateRemainder at hrem
    push_neg
    linarith
  have hr1 : calculateAwlRatio h = 1 := awlRatio_one h hFlt
  simp only [sumFinalFractions, allocationEntries, hum]
  simp only [List.map_append, List.sum_append, sum_snd_guard, sum_snd_guard2]
  simp only [asabaMaleShareFor_eq h _ _ hc, asabaFemaleShareFor_eq h _ _ hc,
    raddShareOf_zero_not_applied h _ hnr,
    maternalRaddAddend_zero_not_applied h hnr, hr1, mul_one, add_zero,
    reduceCtorEq, reduceIte, ite_self]
  have hFsum := fixedTotal_decomp h
  have hremEq : calculateRemainder h = 1 - calculateFixedSharesTotal h := rfl
  have hremne : calculateRemainder h ≠ 0 := ne_of_gt hrem
  simp only [hs0, hgs0, hfa0, hfb, hfbpos, asabaCount, femaleCountFor,
    if_true, if_false, and_false, false_and, ite_self, and_true, true_and,
    lt_self_iff_false, if_pos hfbpos, not_false_iff, eq_self_iff_true,
    Bool.false_eq_true, add_zero] at hFsum ⊢
  rcases Nat.eq_zero_or_pos h.fullSisters with hd | hd
  · simp only [hd, lt_irrefl, if_false, dist_male_f0 _ _ hremne,
      dist_female_zero, add_zero, ite_self]
    linarith [hFsum, hremEq]
  · have hms := dist_sum (calculateRemainder h) h.fullBrothers
      h.fullSisters hfb hremne
    simp only [if_pos hd]
    linarith [hFsum, hremEq, hms]

set_option maxHeartbeats 1000000 in
theorem sumFinal_asaba_paternalBrothers (h : Heirs)
    (hum : calculateUmariyyatanShares h = Option.none)
    (hk : determineAsaba h = some .paternalBrothers)
    (hrem : 0 < calculateRemainder h) : sumFinalFractions h = 1 := by
  have hc := calculateAsaba_some h _ hk hrem
  have hnr : ¬(raddApplies h = true) := raddApplies_false_of_asaba h _ hk
  rw [determineAsaba_eq] at hk
  split_ifs at hk with e1 e2 e3 e4 e5 e6 <;>
    first
    | (injection hk with hh; exact AsabaKey.noConfusion hh)
    | exact Option.noConfusion hk
    | skip
  have he6 := e6
  simp [asabaEligible, asabaCount, asabaScanBlocked] at he6
  have hpb : h.paternalBrothers ≠ 0 := he6.1
  have hfa0 : h.father = false := he6.2.1.1
  have hs0 : h.sons = 0 := he6.2.1.2.1
  have hgs0 : h.grandsonsFromSon = 0 := he6.2.1.2.2
  have hfb0 : h.fullBrothers = 0 := he6.2.2
  have hpbpos : 0 < h.paternalBrothers := Nat.pos_of_ne_zero hpb
  have hFlt : ¬(1 < calculateFixedSharesTotal h) := by
    unfold calculateRemainder at hrem
    push_neg
    linarith
  have hr1 : calculateAwlRatio h = 1 := awlRatio_one h hFlt
  simp only [sumFinalFractions, allocationEntries, hum]
  simp only [List.map_append, List.sum_append, sum_snd_guard, sum_snd_guard2]
  simp only [asabaMaleShareFor_eq h _ _ hc, asabaFemaleShareFor_eq h _ _ hc,
    raddShareOf_zero_not_applied h _ hnr,
    maternalRaddAddend_zero_not_applied h hnr, hr1, mul_one, add_zero,
    reduceCtorEq, reduceIte, ite_self]
  have hFsum := fixedTotal_decomp h
  have hremEq : calculateRemainder h = 1 - calculateFixedSharesTotal h := rfl
  have hremne : calculateRemainder h ≠ 0 := ne_of_gt hrem
  simp only [hs0, hgs0, hfa0, hfb0, hpb, hpbpos, asabaCount, femaleCountFor,
    if_true, if_false, and_false, false_and, ite_self, and_true, true_and,
    lt_self_iff_false, if_pos hpbpos, not_false_iff, eq_self_iff_true,
    Bool.false_eq_true, add_zero] at hFsum ⊢
  rcases Nat.eq_zero_or_pos h.paternalSisters with hd | hd
  · simp only [hd, lt_irrefl, if_false, dist_male_f0 _ _ hremne,
      dist_female_zero, add_zero, ite_self]
    linarith [hFsum, hremEq]
  · have hms := dist_sum (calculateRemainder h) h.paternalBrothers
      h.paternalSisters hpb hremne
    simp only [if_pos hd]
    linarith [hFsum, hremEq, hms]

theorem daughters_nest (n m : ℕ) (x : ℚ) :
    (if n > 0 then if m > 0 then (0 : ℚ) else x else 0) =
      (if n > 0 ∧ m = 0 then x else 0) := by
  by_cases hn : n = 0
  · simp [hn]
  · by_cases hm : m = 0
    · simp [Nat.pos_of_ne_zero hn, hm]
    · simp [Nat.pos_of_ne_zero hn, hm, Nat.pos_of_ne_zero hm]

set_option maxHeartbeats 1000000 in
theorem sumFinal_asaba_nephewsFull (h : Heirs)
    (hum : calculateUmariyyatanShares h = Option.none)
    (hk : determineAsaba h = some .nephewsFullBrothers)
    (hrem : 0 < calculateRemainder h) : sumFinalFractions h = 1 := by
  have hc := calculateAsaba_some h _ hk hrem
  have hnr : ¬(raddApplies h = true) := raddApplies_false_of_asaba h _ hk
  rw [determineAsaba_eq] at hk
  split_ifs at hk with e1 e2 e3 e4 e5 e6 e7 <;>
    first
    | (injection hk with hh; exact AsabaKey.noConfusion hh)
    | exact Option.noConfusion hk
    | skip
  have hFlt : ¬(1 < calculateFixedSharesTotal h) := by
    unfold calculateRemainder at hrem
    push_neg
    linarith
  have hr1 : calculateAwlRatio h = 1 := awlRatio_one h hFlt
  have hremEq : calculateRemainder h = 1 - calculateFixedSharesTotal h := rfl
  have hremne : calculateRemainder h ≠ 0 := ne_of_gt hrem
  have hmale : (distributeAsaba (calculateRemainder h)
      (asabaCount h .nephewsFullBrothers)
      (femaleCountFor h .nephewsFullBrothers)).maleShare =
        calculateRemainder h := by
    simp only [asabaCount, femaleCountFor]
    exact dist_male_f0 _ _ hremne
  have hFsum := fixedTotal_decomp h
  simp only [sumFinalFractions, allocationEntries, hum]
  simp only [List.map_append, List.sum_append, sum_snd_guard, sum_snd_guard2]
  simp only [asabaMaleShareFor_eq h _ _ hc, asabaFemaleShareFor_eq h _ _ hc,
    raddShareOf_zero_not_applied h _ hnr,
    maternalRaddAddend_zero_not_applied h hnr, hr1, mul_one, add_zero,
    reduceCtorEq, reduceIte, ite_self, e7, if_true, hmale, daughters_nest]
  linarith [hFsum, hremEq]

set_option maxHeartbeats 1000000 in
theorem sumFinal_asaba_nephewsPaternal (h : Heirs)
    (hum : calculateUmariyyatanShares h = Option.none)
    (hk : determineAsaba h = some .nephewsPaternalBrothers)
    (hrem : 0 < calculateRemainder h) : sumFinalFractions h = 1 := by
  have hc := calculateAsaba_some h _ hk hrem
  have hnr : ¬(raddApplies h = true) := raddApplies_false_of_asaba h _ hk
  rw [determineAsaba_eq] at hk
  split_ifs at hk with e1 e2 e3 e4 e5 e6 e7 e8 <;>
    first
    | (injection hk with hh; exact AsabaKey.noConfusion hh)
    | exact Option.noConfusion hk
    | skip
  have hFlt : ¬(1 < calculateFixedSharesTotal h) := by
    unfold calculateRemainder at hrem
    push_neg
    linarith
  have hr1 : calculateAwlRatio h = 1 := awlRatio_one h hFlt
  have hremEq : calculateRemainder h = 1 - calculateFixedSharesTotal h := rfl
  have hremne : calculateRemainder h ≠ 0 := ne_of_gt hrem
  have hmale : (distributeAsaba (calculateRemainder h)
      (asabaCount h .nephewsPaternalBrothers)
      (femaleCountFor h .nephewsPaternalBrothers)).maleShare =
        calculateRemainder h := by
    simp only [asabaCount, femaleCountFor]
    exact dist_male_f0 _ _ hremne
  have hFsum := fixedTotal_decomp h
  simp only [sumFinalFractions, allocationEntries, hum]
  simp only [List.map_append, List.sum_append, sum_snd_guard, sum_snd_guard2]
  simp only [asabaMaleShareFor_eq h _ _ hc, asabaFemaleShareFor_eq h _ _ hc,
    raddShareOf_zero_not_applied h _ hnr,
    maternalRaddAddend_zero_not_applied h hnr, hr1, mul_one, add_zero,
    reduceCtorEq, reduceIte, ite_self, e8, if_true, hmale, daughters_nest]
  linarith [hFsum, hremEq]

set_option maxHeartbeats 1000000 in
theorem sumFinal_asaba_unclesFull (h : Heirs)
    (hum : calculateUmariyyatanShares h = Option.none)
    (hk : determineAsaba h = some .unclesFull)
    (hrem : 0 < calculateRemainder h) : sumFinalFractions h = 1 := by
  have hc := calculateAsaba_some h _ hk hrem
  have hnr : ¬(raddApplies h = true) := raddApplies_false_of_asaba h _ hk
  rw [determineAsaba_eq] at hk
  split_ifs at hk with e1 e2 e3 e4 e5 e6 e7 e8 e9 <;>
    first
    | (injection hk with hh; exact AsabaKey.noConfusion hh)
    | exact Option.noConfusion hk
    | skip
  have hFlt : ¬(1 < calculateFixedSharesTotal h) := by
    unfold calculateRemainder at hrem
    push_neg
    linarith
  have hr1 : calculateAwlRatio h = 1 := awlRatio_one h hFlt
  have hremEq : calculateRemainder h = 1 - calculateFixedSharesTotal h := rfl
  have hremne : calculateRemainder h ≠ 0 := ne_of_gt hrem
  have hmale : (distributeAsaba (calculateRemainder h)
      (asabaCount h .unclesFull)
      (femaleCountFor h .unclesFull)).maleShare =
        calculateRemainder h := by
    simp only [asabaCount, femaleCountFor]
    exact dist_male_f0 _ _ hremne
  have hFsum := fixedTotal_decomp h
  simp only [sumFinalFractions, allocationEntries, hum]
  simp only [List.map_append, List.sum_append, sum_snd_guard, sum_snd_guard2]
  simp only [asabaMaleShareFor_eq h _ _ hc, asabaFemaleShareFor_eq h _ _ hc,
    raddShareOf_zero_not_applied h _ hnr,
    maternalRaddAddend_zero_not_applied h hnr, hr1, mul_one, add_zero,
    reduceCtorEq, reduceIte, ite_self, e9, if_true, hmale, daughters_nest]
  linarith [hFsum, hremEq]

set_option maxHeartbeats 1000000 in
theorem sumFinal_asaba_unclesPaternal (h : Heirs)
    (hum : calculateUmariyyatanShares h = Option.none)
    (hk : determineAsaba h = some .unclesPaternal)
    (hrem : 0 < calculateRemainder h) : sumFinalFractions h = 1 := by
  have hc := calculateAsaba_some h _ hk hrem
  have hnr : ¬(raddApplies h = true) := raddApplies_false_of_asaba h _ hk
  rw [determineAsaba_eq] at hk
  split_ifs at hk with e1 e2 e3 e4 e5 e6 e7 e8 e9 e10 <;>
    first
    | (injection hk with hh; exact AsabaKey.noConfusion hh)
    | exact Option.noConfusion hk
    | skip
  have hFlt : ¬(1 < calculateFixedSharesTotal h) := by
    unfold calculateRemainder at hrem
    push_neg
    linarith
  have hr1 : calculateAwlRatio h = 1 := awlRatio_one h hFlt
  have hremEq : calculateRemainder h = 1 - calculateFixedSharesTotal h := rfl
  have hremne : calculateRemainder h ≠ 0 := ne_of_gt hrem
  have hmale : (distributeAsaba (calculateRemainder h)
      (asabaCount h .unclesPaternal)
      (femaleCountFor h .unclesPaternal)).maleShare =
        calculateRemainder h := by
    simp only [asabaCount, femaleCountFor]
    exact dist_male_f0 _ _ hremne
  have hFsum := fixedTotal_decomp h
  simp only [sumFinalFractions, allocationEntries, hum]
  simp only [List.map_append, List.sum_append, sum_snd_guard, sum_snd_guard2]
  simp only [asabaMaleShareFor_eq h _ _ hc, asabaFemaleShareFor_eq h _ _ hc,
    raddShareOf_zero_not_applied h _ hnr,
    maternalRaddAddend_zero_not_applied h hnr, hr1, mul_one, add_zero,
    reduceCtorEq, reduceIte, ite_self, e10, if_true, hmale, daughters_nest]
  linarith [hFsum, hremEq]

theorem sum_map_guard (b : Prop) [Decidable b] (r0 : RaddRecipient)
    (f : RaddRecipient → ℚ) :
    (((if b then [r0] else []) : List RaddRecipient).map f).sum =
      if b then f r0 else 0 := by
  by_cases hb : b <;> simp [hb]

theorem mem_radd_mother (h : Heirs) :
    RaddRecipient.mother ∈ getRaddRecipients h ↔ h.mother = true := by
  simp [getRaddRecipients]

theorem mem_radd_daughters (h : Heirs) :
    RaddRecipient.daughters ∈ getRaddRecipients h ↔
      canDaughtersRadd h = true := by
  simp [getRaddRecipients]

theorem mem_radd_granddaughters (h : Heirs) :
    RaddRecipient.granddaughtersFromSon ∈ getRaddRecipients h ↔
      canGranddaughtersRadd h = true := by
  simp [getRaddRecipients]

theorem mem_radd_grandmothers (h : Heirs) :
    RaddRecipient.grandmothers ∈ getRaddRecipients h ↔
      canGrandmothersRadd h = true := by
  simp [getRaddRecipients]

theorem mem_radd_fullSisters (h : Heirs) :
    RaddRecipient.fullSisters ∈ getRaddRecipients h ↔
      canFullSistersRadd h = true := by
  simp [getRaddRecipients]

theorem mem_radd_paternalSisters (h : Heirs) :
    RaddRecipient.paternalSisters ∈ getRaddRecipients h ↔
      canPaternalSistersRadd h = true := by
  simp [getRaddRecipients]

theorem mem_radd_maternalBrothers (h : Heirs) :
    RaddRecipient.maternalBrothers ∈ getRaddRecipients h ↔
      (isKalalah h = true ∧ 0 < h.maternalBrothers) := by
  simp [getRaddRecipients]

theorem mem_radd_maternalSisters (h : Heirs) :
    RaddRecipient.maternalSisters ∈ getRaddRecipients h ↔
      (isKalalah h = true ∧ 0 < h.maternalSisters) := by
  simp [getRaddRecipients]

theorem shouldAdd_brothers (l : List RaddRecipient) :
    shouldAddMaternalSiblingsShare .maternalBrothers l = true := by
  unfold shouldAddMaternalSiblingsShare
  by_cases hs : RaddRecipient.maternalSisters ∈ l <;> simp [hs]

theorem shouldAdd_sisters (l : List RaddRecipient) :
    shouldAddMaternalSiblingsShare .maternalSisters l =
      !decide (RaddRecipient.maternalBrothers ∈ l) := by
  unfold shouldAddMaternalSiblingsShare
  by_cases hb : RaddRecipient.maternalBrothers ∈ l <;> simp [hb]

/-- The recipients total decomposes as one guarded base share per
logical recipient category, the pooled maternal category counted
once. -/
theorem raddTotal_decomp (h : Heirs) :
    calculateRaddRecipientsTotal h (getRaddRecipients h) =
      (if h.mother then calculateMotherShare h else 0)
      + ((if canDaughtersRadd h then daughtersRaddShare h else 0)
      + ((if canGranddaughtersRadd h then granddaughtersRaddShare h else 0)
      + ((if canGrandmothersRadd h then (1 : ℚ)/6 else 0)
      + ((if canFullSistersRadd h then fullSistersRaddShare h else 0)
      + ((if canPaternalSistersRadd h then paternalSistersRaddShare h else 0)
      + (if isKalalah h ∧ maternalTotal h > 0 then
          maternalSiblingsRaddShare h else 0)))))) := by
  unfold calculateRaddRecipientsTotal
  conv_lhs => rw [getRaddRecipients]
  simp only [List.map_append, List.sum_append, sum_map_guard]
  simp only [getRecipientRaddShare, shouldAdd_brothers, if_true,
    shouldAdd_sisters, mem_radd_maternalBrothers]
  have hmt : (maternalTotal h > 0) = (0 < h.maternalBrothers ∨
      0 < h.maternalSisters) := by
    unfold maternalTotal
    apply propext
    omega
  by_cases hk : isKalalah h = true
  · by_cases hb : 0 < h.maternalBrothers
    · by_cases hs : 0 < h.maternalSisters <;>
        simp [hk, hb, hs, hmt] <;> ring
    · by_cases hs : 0 < h.maternalSisters <;>
        simp [hk, hb, hs, hmt] <;> ring
  · simp [hk, hmt]
    ring

theorem motherShare_pos (h : Heirs) : 0 < calculateMotherShare h := by
  unfold calculateMotherShare
  split_ifs <;> norm_num

theorem daughtersRaddShare_pos (h : Heirs) : 0 < daughtersRaddShare h := by
  unfold daughtersRaddShare
  split_ifs <;> norm_num

theorem granddaughtersRaddShare_nonneg (h : Heirs) :
    0 ≤ granddaughtersRaddShare h := by
  unfold granddaughtersRaddShare
  split_ifs <;> norm_num

theorem granddaughtersRaddShare_pos (h : Heirs) (hd : h.daughters ≤ 1) :
    0 < granddaughtersRaddShare h := by
  unfold granddaughtersRaddShare
  split_ifs with h1 h2 <;> first | (norm_num; done) | omega

theorem fullSistersRaddShare_pos (h : Heirs) : 0 < fullSistersRaddShare h := by
  unfold fullSistersRaddShare
  split_ifs <;> norm_num

theorem paternalSistersRaddShare_nonneg (h : Heirs) :
    0 ≤ paternalSistersRaddShare h := by
  unfold paternalSistersRaddShare
  split_ifs <;> norm_num

theorem paternalSistersRaddShare_pos (h : Heirs) (hf : h.fullSisters ≤ 1) :
    0 < paternalSistersRaddShare h := by
  unfold paternalSistersRaddShare
  split_ifs with h1 h2 <;> first | (norm_num; done) | omega

theorem maternalSiblingsRaddShare_pos (h : Heirs) :
    0 < maternalSiblingsRaddShare h := by
  unfold maternalSiblingsRaddShare
  split_ifs <;> norm_num

theorem recipients_ne_nil_iff (h : Heirs) :
    getRaddRecipients h ≠ [] ↔
      (h.mother = true ∨ canDaughtersRadd h = true ∨
        canGranddaughtersRadd h = true ∨ canGrandmothersRadd h = true ∨
        canFullSistersRadd h = true ∨ canPaternalSistersRadd h = true ∨
        (isKalalah h = true ∧ 0 < h.maternalBrothers) ∨
        (isKalalah h = true ∧ 0 < h.maternalSisters)) := by
  constructor
  · intro hne
    by_contra hall
    push_neg at hall
    obtain ⟨h1, h2, h3, h4, h5, h6, h7, h8⟩ := hall
    apply hne
    have hb : ¬(isKalalah h = true ∧ 0 < h.maternalBrothers) := by
      rintro ⟨ha, hb2⟩
      have := h7 ha
      omega
    have hs : ¬(isKalalah h = true ∧ 0 < h.maternalSisters) := by
      rintro ⟨ha, hs2⟩
      have := h8 ha
      omega
    simp [getRaddRecipients, h1, h2, h3, h4, h5, h6, hb, hs]
  · intro hd hnil
    rcases hd with hc | hc | hc | hc | hc | hc | hc | hc <;>
      simp [getRaddRecipients, hc] at hnil

set_option maxHeartbeats 1000000 in
/-- With at least one recipient, the recipients total is strictly
positive (so the proportional division is well defined). -/
theorem raddTotal_pos (h : Heirs) (hne : getRaddRecipients h ≠ []) :
    0 < calculateRaddRecipientsTotal h (getRaddRecipients h) := by
  rw [raddTotal_decomp]
  have t1 : 0 ≤ (if h.mother then calculateMotherShare h else 0) := by
    split_ifs
    · exact le_of_lt (motherShare_pos h)
    · exact le_refl 0
  have t2 : 0 ≤ (if canDaughtersRadd h then daughtersRaddShare h else 0) := by
    split_ifs
    · exact le_of_lt (daughtersRaddShare_pos h)
    · exact le_refl 0
  have t3 : 0 ≤ (if canGranddaughtersRadd h then
      granddaughtersRaddShare h else 0) := by
    split_ifs
    · exact granddaughtersRaddShare_nonneg h
    · exact le_refl 0
  have t4 : 0 ≤ (if canGrandmothersRadd h then (1 : ℚ)/6 else 0) := by
    split_ifs <;> norm_num
  have t5 : 0 ≤ (if canFullSistersRadd h then fullSistersRaddShare h
      else 0) := by
    split_ifs
    · exact le_of_lt (fullSistersRaddShare_pos h)
    · exact le_refl 0
  have t6 : 0 ≤ (if canPaternalSistersRadd h then
      paternalSistersRaddShare h else 0) := by
    split_ifs
    · exact paternalSistersRaddShare_nonneg h
    · exact le_refl 0
  have t7 : 0 ≤ (if isKalalah h ∧ maternalTotal h > 0 then
      maternalSiblingsRaddShare h else 0) := by
    split_ifs
    · exact le_of_lt (maternalSiblingsRaddShare_pos h)
    · exact le_refl 0
  rcases (recipients_ne_nil_iff h).mp hne with hc | hc | hc | hc | hc | hc |
    hc | hc
  · have : 0 < (if h.mother then calculateMotherShare h else 0) := by
      rw [if_pos hc]
      exact motherShare_pos h
    linarith
  · have : 0 < (if canDaughtersRadd h then daughtersRaddShare h else 0) := by
      rw [if_pos hc]
      exact daughtersRaddShare_pos h
    linarith
  · rcases le_or_lt h.daughters 1 with hd1 | hd1
    · have : 0 < (if canGranddaughtersRadd h then
          granddaughtersRaddShare h else 0) := by
        rw [if_pos hc]
        exact granddaughtersRaddShare_pos h hd1
      linarith
    · have hcd : canDaughtersRadd h = true := by
        have hgd : h.granddaughtersFromSon > 0 ∧ h.sons = 0 := by
          simpa [canGranddaughtersRadd] using hc
        simp [canDaughtersRadd, hgd.2]
        omega
      have : 0 < (if canDaughtersRadd h then daughtersRaddShare h
          else 0) := by
        rw [if_pos hcd]
        exact daughtersRaddShare_pos h
      linarith
  · have : 0 < (if canGrandmothersRadd h then (1 : ℚ)/6 else 0) := by
      rw [if_pos hc]
      norm_num
    linarith
  · have : 0 < (if canFullSistersRadd h then fullSistersRaddShare h
        else 0) := by
      rw [if_pos hc]
      exact fullSistersRaddShare_pos h
    linarith
  · rcases le_or_lt h.fullSisters 1 with hf1 | hf1
    · have : 0 < (if canPaternalSistersRadd h then
          paternalSistersRaddShare h else 0) := by
        rw [if_pos hc]
        exact paternalSistersRaddShare_pos h hf1
      linarith
    · have hcf : canFullSistersRadd h = true := by
        have hps : h.paternalSisters > 0 ∧ h.paternalBrothers = 0 ∧
            h.fullBrothers = 0 ∧ ¬(sistersBlockedFromRadd h = true) := by
          simpa [canPaternalSistersRadd] using hc
        simp [canFullSistersRadd, hps.2.2.1, hps.2.2.2]
        omega
      have : 0 < (if canFullSistersRadd h then fullSistersRaddShare h
          else 0) := by
        rw [if_pos hcf]
        exact fullSistersRaddShare_pos h
      linarith
  · have hmt : isKalalah h = true ∧ maternalTotal h > 0 := by
      refine ⟨hc.1, ?_⟩
      unfold maternalTotal
      omega
    have : 0 < (if isKalalah h ∧ maternalTotal h > 0 then
        maternalSiblingsRaddShare h else 0) := by
      rw [if_pos (by exact_mod_cast hmt)]
      exact maternalSiblingsRaddShare_pos h
    linarith
  · have hmt : isKalalah h = true ∧ maternalTotal h > 0 := by
      refine ⟨hc.1, ?_⟩
      unfold maternalTotal
      omega
    have : 0 < (if isKalalah h ∧ maternalTotal h > 0 then
        maternalSiblingsRaddShare h else 0) := by
      rw [if_pos (by exact_mod_cast hmt)]
      exact maternalSiblingsRaddShare_pos h
    linarith

theorem raddShareOf_applied (h : Heirs) (hra : raddApplies h = true)
    (r : RaddRecipient) :
    raddShareOf h r = if r ∈ getRaddRecipients h then
      calculateRemainder h * (getRecipientRaddShare r h [r] /
        calculateRaddRecipientsTotal h (getRaddRecipients h)) else 0 := by
  unfold raddShareOf calculateRaddShareForRecipient
  by_cases hm : r ∈ getRaddRecipients h <;> simp [hra, hm]

theorem guard_inner_same (b : Prop) [Decidable b] (x y : ℚ) :
    (if b then x + (if b then y else 0) else 0) =
      (if b then x else 0) + (if b then y else 0) := by
  by_cases hb : b <;> simp [hb]

theorem guard_scale (b : Prop) [Decidable b] (x c s : ℚ) :
    (if b then c * (x / s) else 0) = (c / s) * (if b then x else 0) := by
  by_cases hb : b
  · rw [if_pos hb, if_pos hb]
    ring
  · simp [hb]

theorem maternal_term (h : Heirs) (rem s : ℚ) :
    (if isKalalah h = true ∧ maternalTotal h > 0 then
      (if maternalTotal h = 1 then (1 : ℚ)/6 else 1/3) +
        (if h.maternalBrothers > 0 then
          (if isKalalah h = true ∧ 0 < h.maternalBrothers then
            rem * (maternalSiblingsRaddShare h / s) else 0)
        else
          (if isKalalah h = true ∧ 0 < h.maternalSisters then
            rem * (maternalSiblingsRaddShare h / s) else 0))
    else 0)
    = (if isKalalah h = true ∧ maternalTotal h > 0 then
        (if maternalTotal h = 1 then (1 : ℚ)/6 else 1/3) else 0)
      + (rem / s) * (if isKalalah h = true ∧ maternalTotal h > 0 then
          maternalSiblingsRaddShare h else 0) := by
  by_cases hk : isKalalah h = true
  · by_cases hmb : 0 < h.maternalBrothers
    · have hmt : maternalTotal h > 0 := by
        unfold maternalTotal
        omega
      simp [hk, hmb, hmt]
      ring
    · by_cases hms : 0 < h.maternalSisters
      · have hmt : maternalTotal h > 0 := by
          unfold maternalTotal
          omega
        simp [hk, hmb, hms, hmt]
        ring
      · have hmt : ¬(maternalTotal h > 0) := by
          unfold maternalTotal
          omega
        simp [hk, hmt]
  · simp [hk]

set_option maxHeartbeats 2000000 in
theorem sumFinal_radd (h : Heirs)
    (hum : calculateUmariyyatanShares h = Option.none)
    (hda : determineAsaba h = Option.none)
    (hrem : 0 < calculateRemainder h)
    (hne : getRaddRecipients h ≠ []) : sumFinalFractions h = 1 := by
  have hall := (scanAsaba_eq_none_iff h asabaPriorityList).mp hda
  have hs0 : h.sons = 0 := by
    have := hall .sons (by decide)
    simpa [asabaEligible, asabaCount, asabaScanBlocked] using this
  have hgs0 : h.grandsonsFromSon = 0 := by
    have := hall .grandsonsFromSon (by decide)
    simp [asabaEligible, asabaCount, asabaScanBlocked, hs0] at this
    exact this
  have hfa0 : h.father = false := by
    have := hall .father (by decide)
    simp [asabaEligible, asabaCount, asabaScanBlocked] at this
    exact this
  have hpgf0 : h.paternalGrandfather = false := by
    have := hall .paternalGrandfather (by decide)
    simp [asabaEligible, asabaCount, asabaScanBlocked, hfa0] at this
    exact this
  have hfb0 : h.fullBrothers = 0 := by
    have := hall .fullBrothers (by decide)
    simp [asabaEligible, asabaCount, asabaScanBlocked, hfa0, hs0, hgs0]
      at this
    exact this
  have hpb0 : h.paternalBrothers = 0 := by
    have := hall .paternalBrothers (by decide)
    simp [asabaEligible, asabaCount, asabaScanBlocked, hfa0, hs0, hgs0, hfb0]
      at this
    exact this
  have hcA : calculateAsaba h = Option.none := by
    unfold calculateAsaba
    rw [hda]
  have hra : raddApplies h = true := by
    simp [raddApplies, hrem, hda, hne]
  have hFlt : ¬(1 < calculateFixedSharesTotal h) := by
    unfold calculateRemainder at hrem
    push_neg
    linarith
  have hr1 : calculateAwlRatio h = 1 := awlRatio_one h hFlt
  have hFsum := fixedTotal_decomp h
  have hS := raddTotal_decomp h
  have hSpos := raddTotal_pos h hne
  have hSne : calculateRaddRecipientsTotal h (getRaddRecipients h) ≠ 0 :=
    ne_of_gt hSpos
  have hremEq : calculateRemainder h = 1 - calculateFixedSharesTotal h := rfl
  simp only [sumFinalFractions, allocationEntries, hum]
  simp only [List.map_append, List.sum_append, sum_snd_guard, sum_snd_guard2]
  simp only [asabaMale_zero h _ hcA, asabaFemale_zero h _ hcA, hr1, mul_one,
    add_zero, ite_self]
  simp only [raddShareOf_applied h hra, maternalRaddAddend,
    raddShareOf_applied h hra .maternalBrothers,
    raddShareOf_applied h hra .maternalSisters,
    mem_radd_mother, mem_radd_daughters, mem_radd_granddaughters,
    mem_radd_grandmothers, mem_radd_fullSisters, mem_radd_paternalSisters,
    mem_radd_maternalBrothers, mem_radd_maternalSisters]
  simp only [hs0, hgs0, hfa0, hpgf0, hfb0, hpb0, if_true, if_false,
    and_false, false_and, ite_self, and_true, true_and, lt_self_iff_false,
    not_false_iff, eq_self_iff_true, Bool.false_eq_true, add_zero,
    if_neg (lt_irrefl 0)] at hFsum hS ⊢
  have hb1 : getRecipientRaddShare .maternalBrothers h
      [RaddRecipient.maternalBrothers] = maternalSiblingsRaddShare h := by
    simp [getRecipientRaddShare, shouldAdd_brothers]
  have hb2 : getRecipientRaddShare .maternalSisters h
      [RaddRecipient.maternalSisters] = maternalSiblingsRaddShare h := by
    simp [getRecipientRaddShare, shouldAdd_sisters]
  simp only [hb1, hb2]
  simp only [getRecipientRaddShare]
  simp only [canDaughtersRadd, canGranddaughtersRadd, canGrandmothersRadd,
    canFullSistersRadd, canPaternalSistersRadd, sistersBlockedFromRadd,
    hs0, hgs0, hfa0, hfb0, hpb0, if_true, if_false, and_false, false_and,
    ite_self, and_true, true_and, lt_self_iff_false, not_false_iff,
    eq_self_iff_true, Bool.false_eq_true, add_zero, decide_eq_true_eq,
    Bool.and_eq_true, Bool.or_eq_true, Bool.not_eq_true',
    decide_eq_false_iff_not, or_false, false_or, not_lt] at hS ⊢
  rw [guard_inner_same, guard_inner_same, guard_inner_same,
    guard_inner_same, guard_inner_same, guard_inner_same, maternal_term]
  rw [guard_scale, guard_scale, guard_scale, guard_scale, guard_scale,
    guard_scale]
  have hscale : calculateRemainder h /
      calculateRaddRecipientsTotal h (getRaddRecipients h) *
      calculateRaddRecipientsTotal h (getRaddRecipients h) =
        calculateRemainder h := div_mul_cancel₀ _ hSne
  linear_combination hscale + hremEq - hFsum -
    (calculateRemainder h /
      calculateRaddRecipientsTotal h (getRaddRecipients h)) * hS

theorem umar_entries_sum (h : Heirs) (u : UmarShares)
    (hu : calculateUmariyyatanShares h = some u) :
    sumFinalFractions h = 1 := by
  have hsum : u.spouseShare + u.motherShare + u.fatherShare = 1 := by
    unfold calculateUmariyyatanShares at hu
    by_cases hc : checkUmariyyatan h = true
    · rw [if_pos hc] at hu
      injection hu with hu
      subst hu
      simp only
      ring
    · rw [if_neg hc] at hu
      cases hu
  simp only [sumFinalFractions, allocationEntries, hu]
  by_cases hh : u.spouseIsHusband = true <;> simp [hh] <;> linarith [hsum]

theorem sumFinal_amended (h : Heirs)
    (hnoleak : ¬(0 < calculateRemainder h ∧
      determineAsaba h = Option.none ∧ getRaddRecipients h = [])) :
    sumFinalFractions h = 1 := by
  cases hum : calculateUmariyyatanShares h with
  | some u => exact umar_entries_sum h u hum
  | none =>
      rcases lt_trichotomy (calculateRemainder h) 0 with hlt | heq | hgt
      · exact sumFinal_nonpos h hum (le_of_lt hlt)
      · exact sumFinal_nonpos h hum (le_of_eq heq)
      · cases hda : determineAsaba h with
        | none =>
            have hne : getRaddRecipients h ≠ [] := fun hc =>
              hnoleak ⟨hgt, hda, hc⟩
            exact sumFinal_radd h hum hda hgt hne
        | some k =>
            cases k with
            | sons => exact sumFinal_asaba_sons h hum hda hgt
            | grandsonsFromSon => exact sumFinal_asaba_grandsons h hum hda hgt
            | father => exact sumFinal_asaba_father h hum hda hgt
            | paternalGrandfather => exact sumFinal_asaba_pgf h hum hda hgt
            | fullBrothers => exact sumFinal_asaba_fullBrothers h hum hda hgt
            | paternalBrothers =>
                exact sumFinal_asaba_paternalBrothers h hum hda hgt
            | nephewsFullBrothers =>
                exact sumFinal_asaba_nephewsFull h hum hda hgt
            | nephewsPaternalBrothers =>
                exact sumFinal_asaba_nephewsPaternal h hum hda hgt
            | unclesFull => exact sumFinal_asaba_unclesFull h hum hda hgt
            | unclesPaternal =>
                exact sumFinal_asaba_unclesPaternal h hum hda hgt

/-- Only a husband present: the valid composition on which sum-to-one
fails (his 1/2 share is the whole output). -/
def husbandOnlyHeirs : Heirs :=
  { Heirs.none with husband := true }

set_option maxHeartbeats 1000000 in
theorem husbandOnly_sum :
    sumFinalFractions husbandOnlyHeirs = 1/2 := by
  have hda : determineAsaba husbandOnlyHeirs = Option.none := by decide
  have hcA : calculateAsaba husbandOnlyHeirs = Option.none := by
    unfold calculateAsaba
    rw [hda]
  have hrec : getRaddRecipients husbandOnlyHeirs = [] := by decide
  have hnr : ¬(raddApplies husbandOnlyHeirs = true) := by
    unfold raddApplies
    simp [hrec]
  have hum : calculateUmariyyatanShares husbandOnlyHeirs = Option.none := by
    unfold calculateUmariyyatanShares
    rw [if_neg (by decide)]
  have hF : calculateFixedSharesTotal husbandOnlyHeirs = 1/2 := by
    norm_num [calculateFixedSharesTotal, fixedShareTerms, husbandOnlyHeirs,
      Heirs.none, calculateHusbandShare, wifeTotalShare, calculateMotherShare,
      hasChildren, hasMultipleSiblings, fatherFixedShare,
      grandfatherFixedShare, daughterShare, granddaughterShare,
      fullSisterShare, paternalSisterShare, isKalalah, maternalTotal,
      hasMaleDescendants]
  have hr1 : calculateAwlRatio husbandOnlyHeirs = 1 := by
    apply awlRatio_one
    rw [hF]
    norm_num
  simp only [sumFinalFractions, allocationEntries, hum]
  simp only [List.map_append, List.sum_append, sum_snd_guard, sum_snd_guard2]
  simp only [asabaMale_zero _ _ hcA, asabaFemale_zero _ _ hcA,
    raddShareOf_zero_not_applied _ _ hnr,
    maternalRaddAddend_zero_not_applied _ hnr, hr1, mul_one, add_zero,
    ite_self]
  norm_num [husbandOnlyHeirs, Heirs.none, calculateHusbandShare, hasChildren,
    isKalalah, maternalTotal, asabaEligible, asabaCount, asabaScanBlocked,
    blockedByCloserAsaba]

/-- C1 (counterexample): the claim fails as stated — the composition
with only a husband is valid and has a present, unblocked heir, yet the
full computation allocates him 1/2 with no residuary and no
redistribution recipient, so the final fractions sum to 1/2, not 1. -/
theorem claim_sum_to_one_counterexample :
    validComposition husbandOnlyHeirs ∧
      hasUnblockedHeir husbandOnlyHeirs = true ∧
      sumFinalFractions husbandOnlyHeirs = 1/2 ∧
      ¬(sumFinalFractions husbandOnlyHeirs = 1) := by
  refine ⟨by decide, by decide, husbandOnly_sum, ?_⟩
  rw [husbandOnly_sum]
  norm_num

/-- C1 (amended): for every valid composition with at least one
present, unblocked heir — except those where a positive remainder meets
no residuary category and no redistribution recipient (spouse-only
compositions) — the sum of final fractions over the non-blocked
allocation entries of the full computation equals exactly 1. -/
theorem claim_sum_to_one_amended (h : Heirs)
    (hvalid : validComposition h)
    (hheir : hasUnblockedHeir h = true)
    (hnoleak : ¬(0 < calculateRemainder h ∧
      determineAsaba h = Option.none ∧ getRaddRecipients h = [])) :
    sumFinalFractions h = 1 :=
  sumFinal_amended h hnoleak

/-- A mother and one daughter: a composition where redistribution
completes the estate. -/
def raddWitnessHeirs : Heirs :=
  { Heirs.none with
    mother := true
    daughters := 1 }

/-- Witness for the amended C1: a mother and one daughter trigger the
redistribution and the final fractions sum to exactly 1. -/
theorem claim_sum_to_one_amended_witness :
    validComposition raddWitnessHeirs ∧
      hasUnblockedHeir raddWitnessHeirs = true ∧
      ¬(0 < calculateRemainder raddWitnessHeirs ∧
        determineAsaba raddWitnessHeirs = Option.none ∧
        getRaddRecipients raddWitnessHeirs = []) ∧
      sumFinalFractions raddWitnessHeirs = 1 := by
  have hnl : ¬(0 < calculateRemainder raddWitnessHeirs ∧
      determineAsaba raddWitnessHeirs = Option.none ∧
      getRaddRecipients raddWitnessHeirs = []) := by
    rintro ⟨-, -, hc⟩
    exact absurd hc (by decide)
  exact ⟨by decide, by decide, hnl,
    claim_sum_to_one_amended raddWitnessHeirs (by decide) (by decide) hnl⟩
